import Mathlib

/-!
Verification development for the document-processing core of the repository
(`document_processor.py`).  The Python source is shallowly embedded: strings
are `List Char` / `String`, Python floats are exact decimals `Dec` (all numeric
literals relevant here are integral and exact in binary64), fallible code runs
in `Except String`.  Each regular-expression substitution of the source is
embedded as a structurally recursive character machine that mirrors the
scanning behaviour of CPython's `re` left-to-right leftmost matching.
-/

set_option maxHeartbeats 4000000

namespace DocProc

/-! ## Character classes (ASCII models of Python character predicates) -/

/-- Non-breaking space, U+00A0. -/
def nbspChar : Char := Char.ofNat 160

/-- Apostrophe character. -/
def aposChar : Char := Char.ofNat 39

/-- Model of the characters matched by Python's `str.strip()` / `str.split()`
whitespace (the whitespace characters that occur in this development). -/
def isPyWs (c : Char) : Bool :=
  c = ' ' || c = '\t' || c = '\n' || c = '\x0d' || c = Char.ofNat 11 ||
  c = Char.ofNat 12 || c = nbspChar

/-- Model of the regex class `\s` (same character set as `isPyWs` here). -/
def isReWs (c : Char) : Bool := isPyWs c

/-- The two characters collapsed by the `[ \t]{2,}` substitution. -/
def isSpTab (c : Char) : Bool := c = ' ' || c = '\t'

/-- ASCII model of Python `str.lower` on a character. -/
def lowerChar (c : Char) : Char :=
  if 'A' ≤ c && c ≤ 'Z' then Char.ofNat (c.toNat + 32) else c

/-- ASCII model of Python `str.lower`. -/
def pyLower (s : String) : String := String.mk (s.data.map lowerChar)

/-- Model of the regex class `\w` (word characters) used by `\b` boundaries. -/
def isWordChar (c : Char) : Bool := c.isAlphanum || c = '_'

/-! ## Generic list/string helpers -/

/-- Substring containment, `pat in hay` for Python strings. -/
def containsSub : List Char → List Char → Bool
  | pat, [] => pat.isEmpty
  | pat, c :: rest => pat.isPrefixOf (c :: rest) || containsSub pat rest

/-- String-level substring containment (`needle in hay` in Python). -/
def strIn (needle hay : String) : Bool := containsSub needle.data hay.data

/-- Drop the longest prefix of characters satisfying `p`. -/
def dropWhileP (p : Char → Bool) : List Char → List Char
  | [] => []
  | c :: rest => if p c then dropWhileP p rest else c :: rest

/-- Drop the longest suffix of characters satisfying `p`. -/
def dropRightWhileP (p : Char → Bool) : List Char → List Char
  | [] => []
  | c :: rest =>
    match dropRightWhileP p rest with
    | [] => if p c then [] else [c]
    | r => c :: r

/-- Model of Python `str.strip()` (no arguments) on character lists. -/
def pyStripL (cs : List Char) : List Char := dropWhileP isPyWs (dropRightWhileP isPyWs cs)

/-- Model of Python `str.strip()` on strings. -/
def pyStrip (s : String) : String := String.mk (pyStripL s.data)

/-- Model of Python `str.strip(chars)`: strip the given characters from both ends. -/
def pyStripChars (s : String) (p : Char → Bool) : String :=
  String.mk (dropWhileP p (dropRightWhileP p s.data))

/-- First `n` characters of a string (Python slice `s[:n]`). -/
def takeStr (n : Nat) (s : String) : String := String.mk (s.data.take n)

/-- Split on a separator character (Python `str.split(sep)` for one-character
separators; empty segments are kept). -/
def splitOnCharGo (sep : Char) (cur : List Char) : List Char → List String
  | [] => [String.mk cur.reverse]
  | c :: rest =>
    if c = sep then String.mk cur.reverse :: splitOnCharGo sep [] rest
    else splitOnCharGo sep (c :: cur) rest

/-- Split a string on a one-character separator. -/
def splitOnChar (sep : Char) (s : String) : List String := splitOnCharGo sep [] s.data

/-- Python `"\n".split`-style line split (`text.split('\n')`). -/
def splitNl (s : String) : List String := splitOnChar '\n' s

/-- Join strings with a separator. -/
def joinSep (sep : String) : List String → String
  | [] => ""
  | [s] => s
  | s :: rest => s ++ sep ++ joinSep sep rest

/-! ## The text normalizer `normalize_chunk_text`

Each stage embeds one statement of the Python function, in source order:
`\r\n`/`\r` → `\n`; the `LINE_BREAK_PATTERN` substitution; the
`HTML_TAG_PATTERN` substitution; `html.unescape`; `\xa0` → space;
`\n{2,}` → `\n`; `[ \t]{2,}` → one space; `str.strip()`. -/

/-- Stage 1: `text.replace("\r\n", "\n").replace("\r", "\n")`. -/
def crlfNorm : List Char → List Char
  | [] => []
  | '\x0d' :: '\n' :: rest => '\n' :: crlfNorm rest
  | '\x0d' :: rest => '\n' :: crlfNorm rest
  | c :: rest => c :: crlfNorm rest

/-- Matching states of the `LINE_BREAK_PATTERN` regex
`<\s*(br|/tr|/table|/p)\s*/?>` after an opening `<`. -/
inductive LBState where
  | ws1
  | kw (rem : List Char)
  | slash
  | tDisp
  | ws2
  | gtOnly
deriving Repr, DecidableEq

/-- One attempt step of the `LINE_BREAK_PATTERN` machine: given the state and
the next character, either continue (new state), succeed, or fail. -/
inductive LBStep where
  | cont (st : LBState)
  | matched
  | failed
deriving Repr, DecidableEq

/-- Transition function of the line-break-tag matcher (case-insensitive). -/
def lbStep (st : LBState) (c : Char) : LBStep :=
  match st with
  | .ws1 =>
    if isReWs c then .cont .ws1
    else if lowerChar c = 'b' then .cont (.kw ['r'])
    else if c = '/' then .cont .slash
    else .failed
  | .kw [] =>
    -- unreachable by construction; behaves like ws2 for totality
    if c = '>' then .matched
    else if isReWs c then .cont .ws2
    else if c = '/' then .cont .gtOnly
    else .failed
  | .kw (k :: ks) =>
    if lowerChar c = k then .cont (if ks.isEmpty then .ws2 else .kw ks) else .failed
  | .slash =>
    if lowerChar c = 't' then .cont .tDisp
    else if lowerChar c = 'p' then .cont .ws2
    else .failed
  | .tDisp =>
    if lowerChar c = 'r' then .cont .ws2
    else if lowerChar c = 'a' then .cont (.kw ['b', 'l', 'e'])
    else .failed
  | .ws2 =>
    if c = '>' then .matched
    else if isReWs c then .cont .ws2
    else if c = '/' then .cont .gtOnly
    else .failed
  | .gtOnly => if c = '>' then .matched else .failed

/-- Stage 2 machine: `LINE_BREAK_PATTERN.sub("\n", text)`.  The optional state
carries the match-in-progress (matcher state, consumed characters in reverse).
On failure the consumed characters are emitted literally and the failing
character is re-dispatched, mirroring `re`'s restart at the next position
(the consumed characters cannot contain `<`, so no match is lost). -/
def lbGo : Option (LBState × List Char) → List Char → List Char
  | none, [] => []
  | none, c :: rest =>
    if c = '<' then lbGo (some (.ws1, [])) rest else c :: lbGo none rest
  | some (_, buf), [] => '<' :: buf.reverse
  | some (st, buf), c :: rest =>
    match lbStep st c with
    | .cont st2 => lbGo (some (st2, c :: buf)) rest
    | .matched => '\n' :: lbGo none rest
    | .failed =>
      if c = '<' then '<' :: buf.reverse ++ lbGo (some (.ws1, [])) rest
      else '<' :: buf.reverse ++ c :: lbGo none rest

/-- Stage 2: the `LINE_BREAK_PATTERN` substitution. -/
def lineBreakSub (cs : List Char) : List Char := lbGo none cs

/-- Stage 3 machine: `HTML_TAG_PATTERN.sub(" ", text)` for `<[^>]+>`.  The
optional buffer holds the characters seen since an opening `<`; a closing `>`
with a non-empty buffer completes a match, which is replaced by one space. -/
def tagGo : Option (List Char) → List Char → List Char
  | none, [] => []
  | none, c :: rest =>
    if c = '<' then tagGo (some []) rest else c :: tagGo none rest
  | some buf, [] => '<' :: buf.reverse
  | some buf, c :: rest =>
    if c = '>' then
      if buf.isEmpty then '<' :: '>' :: tagGo none rest else ' ' :: tagGo none rest
    else tagGo (some (c :: buf)) rest

/-- Stage 3: the `HTML_TAG_PATTERN` substitution. -/
def tagSub (cs : List Char) : List Char := tagGo none cs

/-- Stage 4: model of `html.unescape`, restricted to the named character
references exercised in this development (`amp`, `lt`, `gt`, `quot`, `apos`,
`nbsp`, each with a closing semicolon).  Other `&` sequences pass through
unchanged; the Python original also resolves the rest of the HTML5 entity
table, which never occurs here. -/
def unescapeHtml : List Char → List Char
  | [] => []
  | '&' :: 'a' :: 'm' :: 'p' :: ';' :: rest => '&' :: unescapeHtml rest
  | '&' :: 'l' :: 't' :: ';' :: rest => '<' :: unescapeHtml rest
  | '&' :: 'g' :: 't' :: ';' :: rest => '>' :: unescapeHtml rest
  | '&' :: 'q' :: 'u' :: 'o' :: 't' :: ';' :: rest => '"' :: unescapeHtml rest
  | '&' :: 'a' :: 'p' :: 'o' :: 's' :: ';' :: rest => aposChar :: unescapeHtml rest
  | '&' :: 'n' :: 'b' :: 's' :: 'p' :: ';' :: rest => nbspChar :: unescapeHtml rest
  | c :: rest => c :: unescapeHtml rest

/-- Stage 5: `.replace("\xa0", " ")`. -/
def nbspToSpace (cs : List Char) : List Char :=
  cs.map (fun c => if c = nbspChar then ' ' else c)

/-- Stage 6: `re.sub(r"\n{2,}", "\n", text)` — every maximal run of newlines
becomes a single newline (singletons are untouched, with the same result).
The flag records that the previous character was a newline. -/
def nlGo : Bool → List Char → List Char
  | _, [] => []
  | afterNL, c :: rest =>
    if c = '\n' then
      if afterNL then nlGo true rest else '\n' :: nlGo true rest
    else c :: nlGo false rest

/-- Stage 6: collapse newline runs. -/
def collapseNL (cs : List Char) : List Char := nlGo false cs

mutual
/-- Stage 7: `re.sub(r"[ \t]{2,}", " ", text)` — a run of two or more
spaces/tabs becomes a single space; an isolated space or tab is kept as is. -/
def collapseSp : List Char → List Char
  | [] => []
  | [c] => [c]
  | c1 :: c2 :: rest =>
    if isSpTab c1 && isSpTab c2 then ' ' :: collapseSpSkip rest
    else c1 :: collapseSp (c2 :: rest)

/-- Consume the remainder of a space/tab run, then resume `collapseSp`. -/
def collapseSpSkip : List Char → List Char
  | [] => []
  | c :: rest => if isSpTab c then collapseSpSkip rest else c :: collapseSp rest
end

/-- The full normalizer `normalize_chunk_text`. -/
def normalizeChunkText (text : String) : String :=
  if text = "" then ""
  else
    String.mk (pyStripL (collapseSp (collapseNL (nbspToSpace (unescapeHtml
      (tagSub (lineBreakSub (crlfNorm text.data))))))))

/-- The character-list pipeline of the normalizer (the non-empty branch). -/
def zOf (cs : List Char) : List Char :=
  pyStripL (collapseSp (collapseNL (nbspToSpace (unescapeHtml
    (tagSub (lineBreakSub (crlfNorm cs)))))))

/-! ## The numeric extractor `extract_number_from_line` -/

/-- Left word-boundary check for `\b` (position start, or previous char not `\w`). -/
def boundaryOk : Option Char → Bool
  | none => true
  | some c => !isWordChar c

/-- Whether `re.search` finds the two-character word `w1 w2` with `\b` on both
sides anywhere in the character list (`prev` is the character before the
current position). -/
def hasWord2Go (w1 w2 : Char) : Option Char → List Char → Bool
  | _, [] => false
  | _, [_] => false
  | prev, c1 :: c2 :: rest =>
    if c1 = w1 && c2 = w2 && boundaryOk prev && boundaryOk rest.head? then true
    else hasWord2Go w1 w2 (some c1) (c2 :: rest)

/-- Model of `re.search(r"\b" ++ word ++ r"\b", s)` for a two-letter word. -/
def hasWord2 (w1 w2 : Char) (cs : List Char) : Bool := hasWord2Go w1 w2 none cs

/-- Whether the two characters spell `dr` or `cr` case-insensitively. -/
def isDrCr (c1 c2 : Char) : Bool :=
  (lowerChar c1 = 'd' || lowerChar c1 = 'c') && lowerChar c2 = 'r'

/-- Model of `re.sub(r"\b(dr|cr)\b", "", s, flags=re.IGNORECASE)`: remove every
standalone `dr`/`cr` word; boundary context is taken from the original string,
as `re.sub` scans the input left to right. -/
def removeDrCrGo : Option Char → List Char → List Char
  | _, [] => []
  | _, [c] => [c]
  | prev, c1 :: c2 :: rest =>
    if isDrCr c1 c2 && boundaryOk prev && boundaryOk rest.head? then
      removeDrCrGo (some c2) rest
    else c1 :: removeDrCrGo (some c1) (c2 :: rest)

/-- The character cleanup
`line.replace(',', '').replace('$', '').replace('(', '-').replace(')', '')`. -/
def cleanNumericChars (cs : List Char) : List Char :=
  cs.filterMap (fun c =>
    if c = ',' then none
    else if c = '$' then none
    else if c = '(' then some '-'
    else if c = ')' then none
    else some c)

/-- Model of Python `str.split()` (split on whitespace runs, dropping empties). -/
def pySplitWsGo (cur : List Char) : List Char → List String
  | [] => if cur.isEmpty then [] else [String.mk cur.reverse]
  | c :: rest =>
    if isPyWs c then
      if cur.isEmpty then pySplitWsGo [] rest
      else String.mk cur.reverse :: pySplitWsGo [] rest
    else pySplitWsGo (c :: cur) rest

/-- Model of Python `str.split()`. -/
def pySplitWs (s : String) : List String := pySplitWsGo [] s.data

/-- An exact decimal number `m / 10 ^ e`.  Python float values arising in this
code are finite decimals; they are modelled exactly (binary64 rounding agrees
on every literal exercised here), with kernel-computable `Int`/`Nat`
arithmetic. -/
structure Dec where
  m : Int
  e : Nat
deriving Repr, DecidableEq

instance : OfNat Dec n := ⟨⟨(n : Int), 0⟩⟩

instance : Neg Dec := ⟨fun d => ⟨-d.m, d.e⟩⟩

/-- Semantic equality of decimals (`==` on the represented rationals). -/
def decBeq (a b : Dec) : Bool := a.m * (10 : Int) ^ b.e = b.m * (10 : Int) ^ a.e

/-- Semantic order on decimals. -/
def decLe (a b : Dec) : Bool := a.m * (10 : Int) ^ b.e ≤ b.m * (10 : Int) ^ a.e

/-- Absolute value. -/
def decAbs (a : Dec) : Dec := ⟨(a.m.natAbs : Int), a.e⟩

/-- Multiplication (used only for the sign multiplier). -/
def decMul (a b : Dec) : Dec := ⟨a.m * b.m, a.e + b.e⟩

/-- Whether the decimal is zero (Python float truthiness is falsity of 0.0). -/
def decIsZero (a : Dec) : Bool := a.m = 0

/-- Take a maximal digit group, allowing single underscores between digits
(Python numeric-literal strings accept `1_000`).  Returns the digits with the
underscores removed, and the rest of the input. -/
def takeDigitsU : List Char → List Char × List Char
  | [] => ([], [])
  | c :: '_' :: c2 :: rest2 =>
    if c.isDigit then
      if c2.isDigit then
        let (ds, r) := takeDigitsU (c2 :: rest2)
        (c :: ds, r)
      else ([c], '_' :: c2 :: rest2)
    else ([], c :: '_' :: c2 :: rest2)
  | c :: rest =>
    if c.isDigit then
      let (ds, r) := takeDigitsU rest
      (c :: ds, r)
    else ([], c :: rest)

/-- Numeric value of a list of decimal digits. -/
def digitsToNat : List Char → Nat
  | [] => 0
  | c :: rest => digitsToNat rest + c.toNat % 48 * 10 ^ rest.length

/-- Model of Python `float(word)` on whitespace-free tokens, as an exact
decimal.  Accepts `[+-]? (digits [. digits?] | . digits) ([eE] [+-]? digits)?`
with underscores between digits.  `inf`/`nan` forms are not modelled (a `nan`
never passes the magnitude test of the caller, and `inf` does not occur in
financial text); decimal values are exact rather than rounded to binary64,
which agrees on every literal used in this development. -/
def pyFloat? (s : String) : Option Dec :=
  let cs := s.data
  let (neg, cs1) : Bool × List Char :=
    match cs with
    | '-' :: r => (true, r)
    | '+' :: r => (false, r)
    | _ => (false, cs)
  let (ids, cs2) := takeDigitsU cs1
  let (fds, cs3) : List Char × List Char :=
    match cs2 with
    | '.' :: r => takeDigitsU r
    | _ => ([], cs2)
  let hasDot : Bool := match cs2 with | '.' :: _ => true | _ => false
  if ids.isEmpty && fds.isEmpty then none
  else if !hasDot && !fds.isEmpty then none
  else
    let m0 : Int := (digitsToNat ids * 10 ^ fds.length + digitsToNat fds : Nat)
    let mant : Dec := ⟨if neg then -m0 else m0, fds.length⟩
    match cs3 with
    | [] => some mant
    | e :: r =>
      if lowerChar e = 'e' then
        let (epos, r1) : Bool × List Char :=
          match r with
          | '-' :: r2 => (false, r2)
          | '+' :: r2 => (true, r2)
          | _ => (true, r)
        let (eds, r2) := takeDigitsU r1
        if eds.isEmpty then none
        else if !r2.isEmpty then none
        else
          let ev := digitsToNat eds
          some (if epos then ⟨mant.m * (10 : Int) ^ ev, mant.e⟩ else ⟨mant.m, mant.e + ev⟩)
      else none

/-- First token that parses as a number with absolute value at least 100
(smaller parses are skipped and the scan continues, as in the source loop). -/
def firstQualifying : List String → Option Dec
  | [] => none
  | w :: ws =>
    match pyFloat? w with
    | some v => if decLe 100 (decAbs v) then some v else firstQualifying ws
    | none => firstQualifying ws

/-- The embedding of `extract_number_from_line`. -/
def extract_number_from_line (line : String) : Option Dec :=
  if line = "" then none
  else
    let lowerLine := pyLower line
    let multiplier : Dec :=
      if hasWord2 'c' 'r' lowerLine.data then -1
      else if hasWord2 'd' 'r' lowerLine.data then 1
      else 1
    let cleaned := cleanNumericChars line.data
    let cleaned2 := removeDrCrGo none cleaned
    let words := pySplitWsGo [] cleaned2
    match firstQualifying words with
    | some v => some (decMul multiplier v)
    | none => none

/-! ## HTML model

The source parses table markup with `BeautifulSoup(raw_text, "html.parser")`
and then only inspects `table`/`thead`/`tbody`/`tr`/`th`/`td` structure,
`get_text(" ", strip=True)` and the `colspan` attribute.  The embedding
tokenizes the markup (tag names lowercased, character references decoded in
text, as `html.parser` does with `convert_charrefs=True`) and extracts exactly
that structure.  Recursions over the input use explicit fuel (always
instantiated with the input length, which bounds every scan). -/

/-- HTML token: opening tag with attributes, closing tag, or text. -/
inductive HTok where
  | topen (name : String) (attrs : List (String × String))
  | tclose (name : String)
  | ttext (s : String)
deriving Repr, DecidableEq

/-- Take a maximal run of tag-name characters (ASCII letters and digits). -/
def lexTagName : List Char → List Char × List Char
  | [] => ([], [])
  | c :: rest =>
    if c.isAlphanum then
      let (nm, r) := lexTagName rest
      (c :: nm, r)
    else ([], c :: rest)

/-- Take a maximal run of characters satisfying `p`. -/
def takeWhileP (p : Char → Bool) : List Char → List Char × List Char
  | [] => ([], [])
  | c :: rest =>
    if p c then
      let (a, r) := takeWhileP p rest
      (c :: a, r)
    else ([], c :: rest)

/-- Whether a character can start an attribute name. -/
def isAttrNameChar (c : Char) : Bool :=
  !(isReWs c) && c ≠ '=' && c ≠ '>' && c ≠ '/'

/-- Lex the attribute list of an opening tag, up to and including the closing
`>`.  Returns the attributes (names lowercased) and the rest of the input. -/
def lexAttrs (fuel : Nat) (cs : List Char) : List (String × String) × List Char :=
  match fuel with
  | 0 => ([], cs)
  | fuel + 1 =>
    match dropWhileP isReWs cs with
    | [] => ([], [])
    | '>' :: rest => ([], rest)
    | '/' :: rest => lexAttrs fuel rest
    | c :: rest =>
      let (nm, r1) := takeWhileP isAttrNameChar (c :: rest)
      let nmS := pyLower (String.mk nm)
      match dropWhileP isReWs r1 with
      | '=' :: r2 =>
        match dropWhileP isReWs r2 with
        | '"' :: r3 =>
          let (v, r4) := takeWhileP (fun ch => ch ≠ '"') r3
          let r5 := match r4 with | '"' :: r6 => r6 | other => other
          let (attrs, rest2) := lexAttrs fuel r5
          ((nmS, String.mk v) :: attrs, rest2)
        | q :: r3 =>
          if q = aposChar then
            let (v, r4) := takeWhileP (fun ch => ch ≠ aposChar) r3
            let r5 := match r4 with | _ :: r6 => r6 | other => other
            let (attrs, rest2) := lexAttrs fuel r5
            ((nmS, String.mk v) :: attrs, rest2)
          else
            let (v, r4) := takeWhileP (fun ch => !(isReWs ch) && ch ≠ '>') (q :: r3)
            let (attrs, rest2) := lexAttrs fuel r4
            ((nmS, String.mk v) :: attrs, rest2)
        | r3 =>
          let (attrs, rest2) := lexAttrs fuel r3
          ((nmS, "") :: attrs, rest2)
      | r2 =>
        let (attrs, rest2) := lexAttrs fuel r2
        ((nmS, "") :: attrs, rest2)

/-- Tokenize HTML markup. -/
def lexHtml (fuel : Nat) (cs : List Char) : List HTok :=
  match fuel with
  | 0 => []
  | fuel + 1 =>
    match cs with
    | [] => []
    | '<' :: '/' :: rest =>
      let (nm, r1) := lexTagName rest
      if nm.isEmpty then HTok.ttext "<" :: lexHtml fuel ('/' :: rest)
      else
        let r2 := dropWhileP (fun c => c ≠ '>') r1
        let r3 := match r2 with | '>' :: r4 => r4 | other => other
        HTok.tclose (pyLower (String.mk nm)) :: lexHtml fuel r3
    | '<' :: c :: rest =>
      if c.isAlpha then
        let (nm, r1) := lexTagName (c :: rest)
        let (attrs, r2) := lexAttrs r1.length.succ r1
        HTok.topen (pyLower (String.mk nm)) attrs :: lexHtml fuel r2
      else
        let (txt, r) := takeWhileP (fun ch => ch ≠ '<') (c :: rest)
        HTok.ttext (String.mk (unescapeHtml ('<' :: txt))) :: lexHtml fuel r
    | c :: rest =>
      let (txt, r) := takeWhileP (fun ch => ch ≠ '<') (c :: rest)
      HTok.ttext (String.mk (unescapeHtml txt)) :: lexHtml fuel r

/-- A table cell as consumed by the source: tag kind, rendered text, and the
raw `colspan` attribute value exactly as `bs4` stores it (`cell.get("colspan")`
returns the attribute string, or the default when absent); the `int()`
conversion happens later, inside the row loop, where it can raise. -/
structure HCell where
  isTh : Bool
  text : String
  colspan : Option String
deriving Repr, DecidableEq

/-- A table row. -/
structure HTr where
  cells : List HCell
deriving Repr, DecidableEq

/-- The table structure inspected by `parse_table_rows`: the cells of the
first `thead` (if any), the rows of the first `tbody` (if any), and all
`tr` descendants in document order. -/
structure HTable where
  theadCells : Option (List HCell)
  tbodyTrs : Option (List HTr)
  allTrs : List HTr
  text : String
deriving Repr, DecidableEq

/-- Split a token region: tokens up to the matching close of `name` (tracking
nesting depth), and the rest.  An unclosed element swallows the remainder. -/
def splitRegion (fuel : Nat) (name : String) (depth : Nat) :
    List HTok → List HTok × List HTok
  | [] => ([], [])
  | t :: rest =>
    match fuel with
    | 0 => ([], t :: rest)
    | fuel + 1 =>
      match t with
      | .topen nm _ =>
        if nm = name then
          let (a, b) := splitRegion fuel name (depth + 1) rest
          (t :: a, b)
        else
          let (a, b) := splitRegion fuel name depth rest
          (t :: a, b)
      | .tclose nm =>
        if nm = name then
          if depth = 0 then ([], rest)
          else
            let (a, b) := splitRegion fuel name (depth - 1) rest
            (t :: a, b)
        else
          let (a, b) := splitRegion fuel name depth rest
          (t :: a, b)
      | .ttext _ =>
        let (a, b) := splitRegion fuel name depth rest
        (t :: a, b)

/-- Model of `get_text(" ", strip=True)`: each text fragment stripped, empty
fragments dropped, joined with a single space. -/
def toksText (toks : List HTok) : String :=
  joinSep " "
    ((toks.filterMap (fun t =>
      match t with
      | .ttext s => some (pyStrip s)
      | _ => none)).filter (fun s => s ≠ ""))

/-- Tail of a Python `int()` literal after its first digit: further digits
with single underscores allowed between digits. -/
def intTail : List Char → Bool
  | [] => true
  | '_' :: c :: rest => c.isDigit && intTail rest
  | '_' :: [] => false
  | c :: rest => c.isDigit && intTail rest

/-- Body of a Python `int()` literal: at least one digit, underscores only
between digits. -/
def intBody : List Char → Bool
  | [] => false
  | c :: rest => c.isDigit && intTail rest

/-- Model of Python `int(s)` on a string: strip whitespace, optional sign,
then a digit sequence (with single underscores between digits); anything else
raises `ValueError` (ASCII digits, like the rest of this development). -/
def pyIntOfString (s : String) : Except String Int :=
  let t := pyStripL s.data
  let sign : Int := match t with | '-' :: _ => -1 | _ => 1
  let ds := match t with | '+' :: rest => rest | '-' :: rest => rest | _ => t
  if intBody ds then
    .ok (sign * (digitsToNat (ds.filter (fun c => c ≠ '_')) : Int))
  else .error ("ValueError: invalid literal for int() with base 10: " ++ s)

/-- `int(cell.get("colspan", 1))`: the default `1` needs no conversion; a
present attribute string goes through `int()` and can raise. -/
def cellColspan (c : HCell) : Except String Int :=
  match c.colspan with
  | none => .ok 1
  | some v => pyIntOfString v

/-- Collect every `th`/`td` descendant cell in a token region
(`find_all(["th", "td"])` in document order). -/
def collectCells (fuel : Nat) : List HTok → List HCell
  | [] => []
  | t :: rest =>
    match fuel with
    | 0 => []
    | fuel + 1 =>
      match t with
      | .topen nm attrs =>
        if nm = "th" || nm = "td" then
          let (inner, after) := splitRegion rest.length nm 0 rest
          { isTh := nm = "th", text := toksText inner,
            colspan := (attrs.find? (fun a => a.1 = "colspan")).map Prod.snd }
            :: collectCells fuel after
        else collectCells fuel rest
      | _ => collectCells fuel rest

/-- Collect every `tr` descendant in a token region (`find_all("tr")`). -/
def collectTrs (fuel : Nat) : List HTok → List HTr
  | [] => []
  | t :: rest =>
    match fuel with
    | 0 => []
    | fuel + 1 =>
      match t with
      | .topen nm _ =>
        if nm = "tr" then
          let (inner, after) := splitRegion rest.length nm 0 rest
          { cells := collectCells inner.length inner } :: collectTrs fuel after
        else collectTrs fuel rest
      | _ => collectTrs fuel rest

/-- Walk the inner tokens of a `table` element, recording the first `thead`'s
cells, the first `tbody`'s rows, and every `tr` in document order. -/
def buildTableGo (fuel : Nat) (thead : Option (List HCell)) (tbody : Option (List HTr))
    (allTrs : List HTr) : List HTok → HTable
  | [] => { theadCells := thead, tbodyTrs := tbody, allTrs := allTrs, text := "" }
  | t :: rest =>
    match fuel with
    | 0 => { theadCells := thead, tbodyTrs := tbody, allTrs := allTrs, text := "" }
    | fuel + 1 =>
      match t with
      | .topen nm _ =>
        if nm = "thead" then
          let (inner, after) := splitRegion rest.length nm 0 rest
          let trs := collectTrs inner.length inner
          let thead2 := match thead with
            | none => some (collectCells inner.length inner)
            | some c => some c
          buildTableGo fuel thead2 tbody (allTrs ++ trs) after
        else if nm = "tbody" then
          let (inner, after) := splitRegion rest.length nm 0 rest
          let trs := collectTrs inner.length inner
          let tbody2 := match tbody with
            | none => some trs
            | some c => some c
          buildTableGo fuel thead tbody2 (allTrs ++ trs) after
        else if nm = "tr" then
          let (inner, after) := splitRegion rest.length nm 0 rest
          buildTableGo fuel thead tbody
            (allTrs ++ [{ cells := collectCells inner.length inner }]) after
        else buildTableGo fuel thead tbody allTrs rest
      | _ => buildTableGo fuel thead tbody allTrs rest

/-- All top-level `table` elements of a markup string, in document order
(`soup.find_all("table")`; nested tables do not occur in this development). -/
def parseTablesGo (fuel : Nat) : List HTok → List HTable
  | [] => []
  | t :: rest =>
    match fuel with
    | 0 => []
    | fuel + 1 =>
      match t with
      | .topen nm _ =>
        if nm = "table" then
          let (inner, after) := splitRegion rest.length nm 0 rest
          { buildTableGo inner.length none none [] inner with text := toksText inner }
            :: parseTablesGo fuel after
        else parseTablesGo fuel rest
      | _ => parseTablesGo fuel rest

/-- Parse all tables of a raw markup string. -/
def parseHtmlTables (raw : String) : List HTable :=
  let toks := lexHtml raw.data.length.succ raw.data
  parseTablesGo toks.length.succ toks

/-- The first table of a markup string (`soup.find("table")`). -/
def parseHtmlTable (raw : String) : Option HTable := (parseHtmlTables raw).head?

/-! ## `parse_table_rows` -/

/-- Whether the `bs4` import succeeded (`BS4_AVAILABLE`); the environment of
record has BeautifulSoup installed. -/
def BS4_AVAILABLE : Bool := true

/-- A parsed row: a Python dict from column name to cell text, modelled as an
association list in insertion order with unique keys. -/
def Row : Type := List (String × String)

instance : DecidableEq Row := by unfold Row; infer_instance

/-- Python dict assignment `d[k] = v`: overwrite in place, else append. -/
def insertAssoc (l : List (String × String)) (k v : String) : List (String × String) :=
  if (l.map Prod.fst).contains k then
    l.map (fun p => if p.1 = k then (k, v) else p)
  else l ++ [(k, v)]

/-- Keys of a row, in insertion order. -/
def rowKeys (r : Row) : List String := (r : List (String × String)).map Prod.fst

/-- Python `row.get(k)`. -/
def rowGet (r : Row) (k : String) : Option String :=
  ((r : List (String × String)).find? (fun p => p.1 = k)).map Prod.snd

/-- Column name for cell index `idx`:
`header[idx] if idx < len(header) else f"col_{idx+1}"`. -/
def colName (header : List String) (idx : Nat) : String :=
  match header.get? idx with
  | some h => h
  | none => "col_" ++ toString (idx + 1)

/-- Build a row dict from a header and a list of cell texts
(the `for idx, cell in enumerate(cells)` loop). -/
def mkRowGo (header : List String) (idx : Nat) (acc : List (String × String)) :
    List String → List (String × String)
  | [] => acc
  | c :: cs => mkRowGo header (idx + 1) (insertAssoc acc (colName header idx) c) cs

/-- Build a row dict from a header and cell texts. -/
def mkRow (header : List String) (cells : List String) : Row :=
  mkRowGo header 0 [] cells

/-- Expand a `tr`'s cells to texts, duplicating `colspan` as empty padding
(`cells.append(cell_text)` plus `colspan - 1` empty strings), left to right;
a non-numeric `colspan` raises out of the whole cell loop, discarding the
partially built cell list of this row. -/
def expandCellsE : List HCell → Except String (List String)
  | [] => .ok []
  | c :: cs =>
    cellColspan c >>= fun n =>
      expandCellsE cs >>= fun rest =>
        .ok (c.text :: (List.replicate (n - 1).toNat "" ++ rest))

/-- The header heuristic `looks_like_header`. -/
def looksLikeHeader (cells : List String) : Bool :=
  if cells.isEmpty || cells.length < 2 then false
  else cells.all (fun c => (pyStrip c).length < 50 && !(c.data.any Char.isDigit))

/-- The `tr` loop of the HTML strategy, carrying `(tr_idx, header, rows)`.
The `header`/`rows` variables are the ones shared with the fallbacks, so a
colspan `int()` error aborts the loop carrying the state built so far
(`.error` holds the leaked header and rows, as the `except` at line 788 of
the source observes them). -/
def trLoopE (idx : Nat) (header : List String) (rows : List Row) :
    List HTr → Except (List String × List Row) (List String × List Row)
  | [] => .ok (header, rows)
  | tr :: rest =>
    let thCells := tr.cells.filter (fun c => c.isTh)
    if !thCells.isEmpty && header.isEmpty then
      trLoopE (idx + 1) (thCells.map (fun c => c.text)) rows rest
    else if !thCells.isEmpty then
      trLoopE (idx + 1) header rows rest
    else
      match expandCellsE tr.cells with
      | .error _ => .error (header, rows)
      | .ok cells =>
        if cells.isEmpty || cells.all (fun c => pyStrip c = "") then
          trLoopE (idx + 1) header rows rest
        else if header.isEmpty then
          if idx = 0 && looksLikeHeader cells && cells.length ≥ 2 then
            trLoopE (idx + 1) cells rows rest
          else
            let header2 :=
              if cells.length = 2 then ["Field", "Value"]
              else (List.range cells.length).map (fun i => "Column " ++ toString (i + 1))
            trLoopE (idx + 1) header2 (rows ++ [mkRow header2 cells]) rest
        else trLoopE (idx + 1) header (rows ++ [mkRow header cells]) rest

/-- The HTML strategy applied to a parsed table (the body of the
`if table:` block); `.error` carries the partial state a mid-loop exception
leaks to the fallbacks. -/
def htmlLogicE (t : HTable) :
    Except (List String × List Row) (List String × List Row) :=
  let header0 : List String :=
    match t.theadCells with
    | some cs => cs.map (fun c => c.text)
    | none => []
  let trs := match t.tbodyTrs with | some tb => tb | none => t.allTrs
  match trLoopE 0 header0 [] trs with
  | .error st => .error st
  | .ok (h, r) =>
    let h2 :=
      match r with
      | [] => h
      | row :: _ => if h.isEmpty then rowKeys row else h
    .ok (h2, r)

mutual
/-- Model of `re.split(r"\s{2,}", line)`: segments between runs of two or more
whitespace characters (a lone whitespace character stays inside a segment). -/
def splitWs2 (cur : List Char) : List Char → List String
  | [] => [String.mk cur.reverse]
  | [c] => [String.mk (c :: cur).reverse]
  | c1 :: c2 :: rest =>
    if isReWs c1 && isReWs c2 then String.mk cur.reverse :: splitWs2Skip (c2 :: rest)
    else splitWs2 (c1 :: cur) (c2 :: rest)

def splitWs2Skip : List Char → List String
  | [] => [""]
  | c :: rest => if isReWs c then splitWs2Skip rest else splitWs2 [c] rest
end

/-- The pipe-delimited (markdown) strategy plus whitespace-column fallback,
operating on the normalized text (the part of `parse_table_rows` after the
HTML strategy). -/
def wsStrategyGo (fallbackHeader : List String) (rows : List Row) :
    List String → List String × List Row
  | [] => if !rows.isEmpty then (fallbackHeader, rows) else ([], [])
  | line :: rest =>
    let parts := ((splitWs2 [] line.data).map pyStrip).filter (fun s => s ≠ "")
    if parts.length < 2 then wsStrategyGo fallbackHeader rows rest
    else if fallbackHeader.isEmpty then wsStrategyGo parts rows rest
    else wsStrategyGo fallbackHeader (rows ++ [mkRow fallbackHeader parts]) rest

/-- The markdown/whitespace fallback of `parse_table_rows`.  `rows0` is the
shared `rows` list as the fallbacks find it: empty on the normal path, but
holding the partially built HTML rows when the HTML strategy raised mid-loop
(both fallbacks append to that same list and return it). -/
def pipeOrWsStrategy (normalizedText : String) (rows0 : List Row) :
    List String × List Row :=
  let normalizedLines :=
    ((splitNl normalizedText).map pyStrip).filter (fun s => s ≠ "")
  let markdownLines := normalizedLines.filter (fun l => l.data.contains '|')
  if markdownLines.length ≥ 2 then
    let parsedRows := markdownLines.filterMap (fun line =>
      let strippedPipe := pyStripChars line (fun c => c = '|')
      let stripped := pyStrip strippedPipe
      if stripped = "" then none
      else if stripped.data.all (fun c => c = '-' || c = ':') then none
      else some ((splitOnChar '|' strippedPipe).map pyStrip))
    if parsedRows.length ≥ 2 then
      match parsedRows with
      | header :: restRows =>
        let rows := rows0 ++ restRows.map (fun rc => mkRow header rc)
        if !rows.isEmpty then (header, rows)
        else wsStrategyGo [] rows0 normalizedLines
      | [] => wsStrategyGo [] rows0 normalizedLines
    else wsStrategyGo [] rows0 normalizedLines
  else wsStrategyGo [] rows0 normalizedLines

/-- One table through the strategy cascade: the HTML result when it completes
with a header or rows; otherwise the fallbacks, which start from the rows the
HTML pass left in the shared list (none on clean completion, the leaked
partial rows on an exception; the leaked header is overwritten by the pipe
strategy or ignored by the whitespace one, so only rows escape). -/
def tableParse (t : HTable) (norm : String) : List String × List Row :=
  match htmlLogicE t with
  | .ok (h, r) => if h ≠ [] || r ≠ [] then (h, r) else pipeOrWsStrategy norm []
  | .error (_, r) => pipeOrWsStrategy norm r

/-- The embedding of `parse_table_rows`. -/
def parse_table_rows (rawText normalizedText : String) : List String × List Row :=
  if BS4_AVAILABLE && rawText ≠ "" && strIn "<table" (pyLower rawText) then
    match parseHtmlTable rawText with
    | some t => tableParse t normalizedText
    | none => pipeOrWsStrategy normalizedText []
  else pipeOrWsStrategy normalizedText []

/-- Whether the HTML strategy of `parse_table_rows` raises on this markup
(a non-numeric `colspan` aborting the row loop). -/
def htmlAborted (raw : String) : Bool :=
  if BS4_AVAILABLE && raw ≠ "" && strIn "<table" (pyLower raw) then
    match parseHtmlTable raw with
    | some t => match htmlLogicE t with | .error _ => true | .ok _ => false
    | none => false
  else false

/-! ## Python values

The upstream ADE response is duck-typed; it is modelled as a JSON-like value.
Mutually inductive lists keep all recursions structural. -/

mutual
/-- A Python/JSON value as far as the mapper observes it. -/
inductive Value where
  | null
  | vb (b : Bool)
  | vn (q : Dec)
  | vs (s : String)
  | varr (l : ValueList)
  | vobj (l : ValueObj)

/-- A list of values. -/
inductive ValueList where
  | nil
  | cons (hd : Value) (tl : ValueList)

/-- A Python dict with string keys (keys unique, insertion-ordered). -/
inductive ValueObj where
  | onil
  | ocons (k : String) (v : Value) (tl : ValueObj)
end

mutual
/-- Python `==` on values (cross-type numeric/bool equalities such as
`True == 1` are not modelled; they do not occur in chunk ids). -/
def beqV : Value → Value → Bool
  | .null, .null => true
  | .vb a, .vb b => a == b
  | .vn a, .vn b => decBeq a b
  | .vs a, .vs b => a == b
  | .varr a, .varr b => beqVL a b
  | .vobj a, .vobj b => beqVO a b
  | _, _ => false

/-- Equality on value lists. -/
def beqVL : ValueList → ValueList → Bool
  | .nil, .nil => true
  | .cons a as, .cons b bs => beqV a b && beqVL as bs
  | _, _ => false

/-- Equality on value dicts. -/
def beqVO : ValueObj → ValueObj → Bool
  | .onil, .onil => true
  | .ocons k v tl, .ocons k2 v2 tl2 => k == k2 && beqV v v2 && beqVO tl tl2
  | _, _ => false
end

/-- Convert a Lean list of values into a `ValueList`. -/
def toVL : List Value → ValueList
  | [] => .nil
  | v :: vs => .cons v (toVL vs)

/-- Convert a `ValueList` into a Lean list. -/
def vlToList : ValueList → List Value
  | .nil => []
  | .cons v vs => v :: vlToList vs

/-- Convert a Lean association list into a `ValueObj`. -/
def toVO : List (String × Value) → ValueObj
  | [] => .onil
  | (k, v) :: r => .ocons k v (toVO r)

/-- Dict lookup. -/
def objFind : ValueObj → String → Option Value
  | .onil, _ => none
  | .ocons k v tl, key => if k = key then some v else objFind tl key

/-- Dict key membership. -/
def objHas (o : ValueObj) (k : String) : Bool := (objFind o k).isSome

/-- Dict keys in insertion order. -/
def objKeys : ValueObj → List String
  | .onil => []
  | .ocons k _ tl => k :: objKeys tl

/-- Python truthiness. -/
def truthy : Value → Bool
  | .null => false
  | .vb b => b
  | .vn q => !decIsZero q
  | .vs s => s ≠ ""
  | .varr .nil => false
  | .varr _ => true
  | .vobj .onil => false
  | .vobj _ => true

/-- Membership of a value in a list of values (Python `in` for a set of ids). -/
def vmem (v : Value) (l : List Value) : Bool := l.any (fun w => beqV v w)

/-- Python `obj.get(key, default)`: raises `AttributeError` unless `obj` is a
dict. -/
def pyGet (v : Value) (k : String) (dflt : Value) : Except String Value :=
  match v with
  | .vobj l => .ok ((objFind l k).getD dflt)
  | _ => .error "AttributeError: no attribute get"

/-- Python `obj[key]` for a string key. -/
def pyIndexS (v : Value) (k : String) : Except String Value :=
  match v with
  | .vobj l =>
    match objFind l k with
    | some x => .ok x
    | none => .error ("KeyError: " ++ k)
  | .varr _ => .error "TypeError: list indices must be integers"
  | .vs _ => .error "TypeError: string indices must be integers"
  | _ => .error "TypeError: object is not subscriptable"

/-- Python `key in obj` for a string key. -/
def pyInS (k : String) (v : Value) : Except String Bool :=
  match v with
  | .vobj l => .ok (objHas l k)
  | .varr l => .ok (vmem (.vs k) (vlToList l))
  | .vs hay => .ok (strIn k hay)
  | _ => .error "TypeError: argument is not iterable"

/-- Python iteration `for x in v` (dicts yield keys, strings yield
one-character strings). -/
def pyIter (v : Value) : Except String (List Value) :=
  match v with
  | .varr l => .ok (vlToList l)
  | .vobj l => .ok ((objKeys l).map Value.vs)
  | .vs t => .ok (t.data.map (fun c => Value.vs (String.mk [c])))
  | _ => .error "TypeError: object is not iterable"

/-- Python `v.lower()`: raises `AttributeError` unless `v` is a string. -/
def pyLowerV (v : Value) : Except String String :=
  match v with
  | .vs t => .ok (pyLower t)
  | _ => .error "AttributeError: no attribute lower"

/-! ## The financial data model -/

/-- One entry of `key_metrics`.  The `source` key is present only when the
source value was truthy. -/
structure Metric where
  name : String
  value : Dec
  unit : String
  period : String
  source : Option Value

/-- One entry of `tables`. -/
structure TableEntry where
  id : Value
  title : String
  header : List String
  rows : List Row
  page : Value
  box : Value
  type : String

/-- The `metadata` sub-dict.  Values copied from the upstream response are
arbitrary Python values. -/
structure MetaData where
  company_name : Value
  document_date : Value
  document_type : Value

/-- The `income_statement` bucket; a field is `none` while its key is absent. -/
structure IncomeStatement where
  revenue : Option Dec
  net_income : Option Dec
  gross_profit : Option Dec
  line_items : Option (List (String × Dec))

/-- The `balance_sheet` bucket. -/
structure BalanceSheet where
  total_assets : Option Dec
  total_liabilities : Option Dec
  total_equity : Option Dec

/-- The `cash_flow` bucket. -/
structure CashFlow where
  operating_cash_flow : Option Dec
  investing_cash_flow : Option Dec
  financing_cash_flow : Option Dec

/-- The record built by `map_to_financial_schema`.  `tables`/`summary` are
`Option`s because the error record omits the `tables` key and the normal
record omits `summary`. -/
structure FinancialData where
  metadata : MetaData
  income_statement : IncomeStatement
  balance_sheet : BalanceSheet
  cash_flow : CashFlow
  key_metrics : List Metric
  tables : Option (List TableEntry)
  summary : Option String

/-- The fresh record initialized at the top of `map_to_financial_schema`. -/
def initFD : FinancialData where
  metadata :=
    { company_name := .vs "Unknown Company"
      document_date := .vs "Unknown Date"
      document_type := .vs "Document" }
  income_statement := { revenue := none, net_income := none, gross_profit := none, line_items := none }
  balance_sheet := { total_assets := none, total_liabilities := none, total_equity := none }
  cash_flow := { operating_cash_flow := none, investing_cash_flow := none, financing_cash_flow := none }
  key_metrics := []
  tables := some []
  summary := none

/-- The record returned from the outer `except` handler of the mapper. -/
def errorFD (e : String) : FinancialData where
  metadata :=
    { company_name := .vs "Error Mapping Schema"
      document_date := .vs "Unknown"
      document_type := .vs "Unknown" }
  income_statement := { revenue := none, net_income := none, gross_profit := none, line_items := none }
  balance_sheet := { total_assets := none, total_liabilities := none, total_equity := none }
  cash_flow := { operating_cash_flow := none, investing_cash_flow := none, financing_cash_flow := none }
  key_metrics := []
  tables := none
  summary := some ("Error mapping financial schema: " ++ e)

/-- Python truthiness of the `income_statement` dict (any key present). -/
def truthyIncome (i : IncomeStatement) : Bool :=
  i.revenue.isSome || i.net_income.isSome || i.gross_profit.isSome || i.line_items.isSome

/-- Python truthiness of the `balance_sheet` dict. -/
def truthyBalance (b : BalanceSheet) : Bool :=
  b.total_assets.isSome || b.total_liabilities.isSome || b.total_equity.isSome

/-- The current `tables` list (always present while the mapper body runs). -/
def tablesOf (fd : FinancialData) : List TableEntry := fd.tables.getD []

/-! ## Metric helpers -/

/-- The curated keyword list `IMPORTANT_METRIC_KEYWORDS`. -/
def IMPORTANT_METRIC_KEYWORDS : List String :=
  ["total", "premium", "dividend", "balance", "fee", "asset", "liabil",
   "equity", "cash", "revenue", "income", "sales", "payment", "adjustment"]

/-- The embedding of `append_metric`: append a metric unless one with the
same case-insensitive name exists. -/
def append_metric (fd : FinancialData) (name : String) (value : Option Dec)
    (unit : String := "USD") (period : String := "Current Period")
    (source : Value := .null) : FinancialData :=
  match value with
  | none => fd
  | some v =>
    if fd.key_metrics.any (fun m => pyLower m.name = pyLower name) then fd
    else
      { fd with
        key_metrics := fd.key_metrics ++
          [{ name := name, value := v, unit := unit, period := period,
             source := if truthy source then some source else none }] }

/-- The embedding of `clean_metric_label`. -/
def clean_metric_label (label : String) : String :=
  if label = "" then ""
  else
    let s := pyStripL label.data
    let s2 :=
      match takeWhileP Char.isDigit s with
      | ([], _) => s
      | (_ :: _, rest) =>
        let rest2 :=
          match rest with
          | '.' :: r => r
          | ')' :: r => r
          | r => r
        dropWhileP isReWs rest2
    let s3 := dropWhileP (fun c => c = ':') (dropRightWhileP (fun c => c = ':') s2)
    String.mk (pyStripL s3)

/-- Find the first cell in `searchOrder` whose text yields a number. -/
def firstNumericGo (row : Row) : List String → Option Dec
  | [] => none
  | col :: rest =>
    match rowGet row col with
    | none => firstNumericGo row rest
    | some cell =>
      if cell = "" then firstNumericGo row rest
      else
        match extract_number_from_line cell with
        | some v => some v
        | none => firstNumericGo row rest

/-- The embedding of `first_numeric_value`: first numeric cell, preferring
right-most header columns, then remaining row keys. -/
def first_numeric_value (row : Row) (header : List String) : Option Dec :=
  if (row : List (String × String)).isEmpty then none
  else
    let revHeader := header.reverse
    let searchOrder := revHeader ++ (rowKeys row).filter (fun k => !revHeader.contains k)
    firstNumericGo row searchOrder

/-- The title keyword list of `infer_table_title`. -/
def titleKeywords : List String :=
  ["student copy", "university copy", "bank copy", "fee bill",
   "invoice", "receipt", "statement", "challan", "form"]

/-- Whether a line matches `^\d+[\.\)]` (a numbered-list marker). -/
def startsNumbered (s : String) : Bool :=
  match takeWhileP Char.isDigit s.data with
  | ([], _) => false
  | (_ :: _, rest) =>
    match rest with
    | '.' :: _ => true
    | ')' :: _ => true
    | _ => false

/-- Whether every character is a digit, whitespace, comma or currency sign
(the class `[\d\s,\$€£¥]`), and the string is non-empty. -/
def isNumCurrency (s : String) : Bool :=
  !s.data.isEmpty && s.data.all (fun c =>
    c.isDigit || isReWs c || c = ',' || c = '$' || c = '€' || c = '£' || c = '¥')

/-- Whether every character is in `[\d\s,\$€£¥\-:]`, and non-empty. -/
def isNumCurrencyDashColon (s : String) : Bool :=
  !s.data.isEmpty && s.data.all (fun c =>
    c.isDigit || isReWs c || c = ',' || c = '$' || c = '€' || c = '£' || c = '¥' ||
    c = '-' || c = ':')

/-- The prefix words removed by the title cleanup
`re.sub(r"^(copy|form|bill|statement|invoice|receipt)[\s:]+", ...)`. -/
def titlePrefixWords : List String :=
  ["copy", "form", "bill", "statement", "invoice", "receipt"]

/-- Remove one leading title keyword followed by whitespace/colon run. -/
def stripTitlePrefix (s : String) : String :=
  match titlePrefixWords.find? (fun w =>
      w.data.isPrefixOf (pyLower s).data &&
      (match (s.data.drop w.length).head? with
       | some c => isReWs c || c = ':'
       | none => false)) with
  | none => s
  | some w => String.mk (dropWhileP (fun c => isReWs c || c = ':') (s.data.drop w.length))

/-- The first scan of `infer_table_title` over the first ten lines. -/
def titleScan1 : List String → Option String
  | [] => none
  | line :: rest =>
    let stripped := pyStrip line
    if stripped = "" then titleScan1 rest
    else if stripped.data.contains '|' &&
        (pyStripL (stripped.data.filter (fun c => c ≠ '|'))).all
          (fun c => c = '-' || c = ':') then
      titleScan1 rest
    else if startsNumbered stripped then titleScan1 rest
    else if isNumCurrency stripped then titleScan1 rest
    else if titleKeywords.any (fun k => strIn k (pyLower stripped)) ||
        stripped.length > 5 then
      let cleaned := stripTitlePrefix stripped
      some (if cleaned ≠ "" then takeStr 120 cleaned else takeStr 120 stripped)
    else titleScan1 rest

/-- The fallback scan of `infer_table_title` over the first fifteen lines. -/
def titleScan2 : List String → Option String
  | [] => none
  | line :: rest =>
    let stripped := pyStrip line
    if stripped ≠ "" && !stripped.data.contains '|' &&
        !isNumCurrencyDashColon stripped then
      some (takeStr 120 stripped)
    else titleScan2 rest

/-- The embedding of `infer_table_title`. -/
def infer_table_title (rawText : String) : String :=
  let normalized := normalizeChunkText rawText
  let lines := splitNl normalized
  match titleScan1 (lines.take 10) with
  | some t => t
  | none =>
    match titleScan2 (lines.take 15) with
    | some t => t
    | none => "Table"

/-- The embedding of `safely_get_text` for dict items: try the keys
`text`, `markdown`, `content` in order. -/
def sgtKeys (l : ValueObj) : List String → String
  | [] => ""
  | k :: ks =>
    match objFind l k with
    | some v =>
      if truthy v then
        match v with
        | .vs t => normalizeChunkText t
        | _ => sgtKeys l ks
      else sgtKeys l ks
    | none => sgtKeys l ks

/-- The embedding of `safely_get_text`. -/
def safely_get_text (item : Value) : String :=
  match item with
  | .null => ""
  | .vs t => normalizeChunkText t
  | .vobj l => sgtKeys l ["text", "markdown", "content"]
  | _ => ""

/-- Insert into a `line_items` association list (Python dict assignment). -/
def insertAssocQ (l : List (String × Dec)) (k : String) (v : Dec) : List (String × Dec) :=
  if (l.map Prod.fst).contains k then
    l.map (fun p => if p.1 = k then (k, v) else p)
  else l ++ [(k, v)]

/-- The per-row body of `extract_metrics_from_table_entry`. -/
def metricsRowStep (header : List String) (source : Value) (fd : FinancialData)
    (row : Row) : FinancialData :=
  let label0 : String :=
    match header with
    | [] => ""
    | h :: _ => (rowGet row h).getD ""
  let label : String :=
    if label0 = "" then
      match (row : List (String × String)) with
      | [] => label0
      | (_, v) :: _ => v
    else label0
  let cleaned := clean_metric_label label
  if cleaned = "" then fd
  else
    let ll := pyLower cleaned
    if !IMPORTANT_METRIC_KEYWORDS.any (fun k => strIn k ll) then fd
    else
      match first_numeric_value row header with
      | none => fd
      | some v =>
        if strIn "asset" ll && strIn "total" ll then
          let fd2 := { fd with balance_sheet := { fd.balance_sheet with total_assets := some v } }
          append_metric fd2 "Total Assets" (some v) "USD" "Current Period" source
        else if strIn "liabil" ll && strIn "total" ll then
          let fd2 := { fd with balance_sheet := { fd.balance_sheet with total_liabilities := some v } }
          append_metric fd2 "Total Liabilities" (some v) "USD" "Current Period" source
        else if strIn "equity" ll && strIn "total" ll then
          let fd2 := { fd with balance_sheet := { fd.balance_sheet with total_equity := some v } }
          append_metric fd2 "Total Equity" (some v) "USD" "Current Period" source
        else if strIn "cash" ll && (strIn "flow" ll || strIn "operating" ll) then
          let fd2 := { fd with cash_flow := { fd.cash_flow with operating_cash_flow := some v } }
          append_metric fd2 "Operating Cash Flow" (some v) "USD" "Current Period" source
        else if strIn "revenue" ll || strIn "sales" ll || strIn "income" ll then
          let li := fd.income_statement.line_items.getD []
          let fd2 := { fd with income_statement :=
            { fd.income_statement with line_items := some (insertAssocQ li cleaned v) } }
          append_metric fd2 cleaned (some v) "USD" "Current Period" source
        else append_metric fd cleaned (some v) "USD" "Current Period" source

/-- The embedding of `extract_metrics_from_table_entry`. -/
def extract_metrics_from_table_entry (entry : TableEntry) (fd : FinancialData) :
    FinancialData :=
  let source : Value :=
    if entry.title ≠ "" then .vs entry.title
    else entry.id
  entry.rows.foldl (metricsRowStep entry.header source) fd

/-- The per-line body of `extract_income_statement`. -/
def incomeLineStep (fd : FinancialData) (line : String) : FinancialData :=
  let ll := pyLower line
  if strIn "revenue" ll || strIn "sales" ll then
    match extract_number_from_line line with
    | some n =>
      let fd2 := { fd with income_statement := { fd.income_statement with revenue := some n } }
      append_metric fd2 "Revenue" (some n)
    | none => fd
  else if strIn "net income" ll || strIn "net profit" ll || strIn "net earnings" ll then
    match extract_number_from_line line with
    | some n =>
      let fd2 := { fd with income_statement := { fd.income_statement with net_income := some n } }
      append_metric fd2 "Net Income" (some n)
    | none => fd
  else if strIn "gross profit" ll || strIn "gross margin" ll then
    match extract_number_from_line line with
    | some n =>
      let fd2 := { fd with income_statement := { fd.income_statement with gross_profit := some n } }
      append_metric fd2 "Gross Profit" (some n)
    | none => fd
  else fd

/-- The embedding of `extract_income_statement`. -/
def extract_income_statement (tableText : String) (fd : FinancialData) : FinancialData :=
  (splitNl tableText).foldl incomeLineStep fd

/-- The per-line body of `extract_balance_sheet`. -/
def balanceLineStep (fd : FinancialData) (line : String) : FinancialData :=
  let ll := pyLower line
  if strIn "total assets" ll then
    match extract_number_from_line line with
    | some n =>
      let fd2 := { fd with balance_sheet := { fd.balance_sheet with total_assets := some n } }
      append_metric fd2 "Total Assets" (some n)
    | none => fd
  else if strIn "total liabilities" ll then
    match extract_number_from_line line with
    | some n =>
      let fd2 := { fd with balance_sheet := { fd.balance_sheet with total_liabilities := some n } }
      append_metric fd2 "Total Liabilities" (some n)
    | none => fd
  else if strIn "total equity" ll || strIn ("shareholders" ++ String.mk [aposChar] ++ " equity") ll then
    match extract_number_from_line line with
    | some n =>
      let fd2 := { fd with balance_sheet := { fd.balance_sheet with total_equity := some n } }
      append_metric fd2 "Total Equity" (some n)
    | none => fd
  else fd

/-- The embedding of `extract_balance_sheet`. -/
def extract_balance_sheet (tableText : String) (fd : FinancialData) : FinancialData :=
  (splitNl tableText).foldl balanceLineStep fd

/-- The per-line body of `extract_cash_flow`. -/
def cashLineStep (fd : FinancialData) (line : String) : FinancialData :=
  let ll := pyLower line
  if strIn "operating activities" ll || strIn "cash flow from operations" ll then
    match extract_number_from_line line with
    | some n =>
      let fd2 := { fd with cash_flow := { fd.cash_flow with operating_cash_flow := some n } }
      append_metric fd2 "Operating Cash Flow" (some n)
    | none => fd
  else if strIn "investing activities" ll || strIn "cash flow from investing" ll then
    match extract_number_from_line line with
    | some n =>
      let fd2 := { fd with cash_flow := { fd.cash_flow with investing_cash_flow := some n } }
      append_metric fd2 "Investing Cash Flow" (some n)
    | none => fd
  else if strIn "financing activities" ll || strIn "cash flow from financing" ll then
    match extract_number_from_line line with
    | some n =>
      let fd2 := { fd with cash_flow := { fd.cash_flow with financing_cash_flow := some n } }
      append_metric fd2 "Financing Cash Flow" (some n)
    | none => fd
  else fd

/-- The embedding of `extract_cash_flow`. -/
def extract_cash_flow (tableText : String) (fd : FinancialData) : FinancialData :=
  (splitNl tableText).foldl cashLineStep fd

/-- The embedding of `extract_metric`: first keyword hit on a lowercased line
that yields a number. -/
def extract_metric (text : String) (keywords : List String) : Option Dec :=
  (splitNl (pyLower text)).findSome? (fun line =>
    keywords.findSome? (fun kw =>
      if strIn kw line then extract_number_from_line line else none))

/-! ## The schema mapper `map_to_financial_schema`

The body runs in `Except String`; each place where the Python body can raise
on a malformed response is an `Except` raise.  The outer `try/except` is the
final `match` of `map_to_financial_schema`. -/

/-- The company-name part of the metadata block, with Python's short-circuit
evaluation order preserved (`in` is only evaluated when the field is still at
its default). -/
def mdCompanyStep (md : Value) (fd : FinancialData) : Except String FinancialData :=
  if beqV fd.metadata.company_name (.vs "Unknown Company") then
    pyInS "company_name" md >>= fun b =>
      if b then
        pyIndexS md "company_name" >>= fun v =>
          pure { fd with metadata := { fd.metadata with company_name := v } }
      else pure fd
  else pure fd

/-- The document-date part of the metadata block. -/
def mdDateStep (md : Value) (fd : FinancialData) : Except String FinancialData :=
  if beqV fd.metadata.document_date (.vs "Unknown Date") then
    pyInS "document_date" md >>= fun b =>
      if b then
        pyIndexS md "document_date" >>= fun v =>
          pure { fd with metadata := { fd.metadata with document_date := v } }
      else pure fd
  else pure fd

/-- The document-type part of the metadata block (unconditional override). -/
def mdTypeStep (md : Value) (fd : FinancialData) : Except String FinancialData :=
  pyInS "document_type" md >>= fun b =>
    if b then
      pyIndexS md "document_type" >>= fun v =>
        pure { fd with metadata := { fd.metadata with document_type := v } }
    else pure fd

/-- The metadata block (`if "metadata" in ade_response:`). -/
def metadataPhase (resp : Value) (fd : FinancialData) : Except String FinancialData :=
  pyInS "metadata" resp >>= fun hasMd =>
    if !hasMd then pure fd
    else
      pyIndexS resp "metadata" >>= fun md =>
        mdCompanyStep md fd >>= fun fd1 =>
          mdDateStep md fd1 >>= fun fd2 =>
            mdTypeStep md fd2

/-- Find the company-name line of a chunk
(`len(line) > 5 and any(term in line.lower() ...)` on stripped lines). -/
def findCompanyLine (lines : List String) : Option String :=
  lines.findSome? (fun line =>
    let l := pyStrip line
    if l.length > 5 &&
        ["inc", "corp", "ltd", "llc"].any (fun t => strIn t (pyLower l)) then
      some l
    else none)

/-- Find the document-date line of a chunk. -/
def findDateLine (lines : List String) : Option String :=
  lines.findSome? (fun line =>
    let ll := pyLower line
    if (strIn "quarter" ll || strIn "period" ll) &&
        (strIn "ended" ll || strIn "ending" ll) then
      some line
    else none)

/-- One chunk of the first pass (metadata cues). -/
def firstPassStep (fd : FinancialData) (chunk : Value) : Except String FinancialData := do
  let chunkText := safely_get_text chunk
  let _ ← pyGet chunk "type" (.vs "")
  if chunkText = "" then pure fd
  else do
    let ctl := pyLower chunkText
    let fd1 :=
      if beqV fd.metadata.company_name (.vs "Unknown Company") then
        if strIn "company" ctl || strIn "corporation" ctl || strIn "inc" ctl then
          match findCompanyLine (splitNl chunkText) with
          | some l => { fd with metadata := { fd.metadata with company_name := .vs l } }
          | none => fd
        else fd
      else fd
    let fd2 :=
      if beqV fd1.metadata.document_date (.vs "Unknown Date") then
        if strIn "date" ctl || strIn "period" ctl || strIn "quarter" ctl then
          match findDateLine (splitNl chunkText) with
          | some l => { fd1 with metadata := { fd1.metadata with document_date := .vs l } }
          | none => fd1
        else fd1
      else fd1
    pure fd2

/-- The statement-section keyword groups of the second pass. -/
def incomeTerms : List String := ["income statement", "statement of operations", "profit and loss"]

/-- The balance-sheet keyword group. -/
def balanceTerms : List String := ["balance sheet", "financial position", "assets", "liabilities"]

/-- The cash-flow keyword group. -/
def cashTerms : List String := ["cash flow", "statement of cash flows", "operating activities"]

/-- The table-entry block of the second pass (`if header or rows:`): build the
TableEntry, dedup by id, extract metrics.  `none` models the `continue`. -/
def tableBlock (chunk : Value) (fd : FinancialData) (processed : List Value)
    (raw : Value) (rawStr chunkText chunkType : String) (chunkId : Value)
    (header : List String) (rows : List Row) :
    Except String (Option (FinancialData × List Value)) :=
  if header ≠ [] || rows ≠ [] then
    let tableId : Value :=
      if truthy chunkId then chunkId
      else .vs ("table-" ++ toString (tablesOf fd).length)
    if vmem tableId processed then pure none
    else
      pyGet chunk "grounding" (.vobj .onil) >>= fun grounding =>
        pyGet grounding "page" .null >>= fun page =>
          pyGet grounding "box" .null >>= fun box =>
            let entry : TableEntry :=
              { id := tableId
                title := infer_table_title (if truthy raw then rawStr else chunkText)
                header := header
                rows := rows
                page := page
                box := box
                type := if chunkType ≠ "" then chunkType else "table" }
            let fd2 := { fd with tables := some (tablesOf fd ++ [entry]) }
            let fd3 := if rows ≠ [] then extract_metrics_from_table_entry entry fd2 else fd2
            pure (some (fd3, tableId :: processed))
  else pure (some (fd, processed))

/-- The string payload of a raw markdown/text value (`str` content, else `""`). -/
def rawTextOf : Value → String
  | .vs t => t
  | _ => ""

/-- One chunk of the second pass (table detection).  The state carries the
record and the `processed_table_ids` set. -/
def secondPassStep (st : FinancialData × List Value) (chunk : Value) :
    Except String (FinancialData × List Value) :=
  match st with
  | (fd, processed) =>
    pyGet chunk "markdown" .null >>= fun mdv =>
    pyGet chunk "text" .null >>= fun tv =>
    pyGet chunk "content" .null >>= fun cv =>
    let raw : Value :=
      if truthy mdv then mdv
      else if truthy tv then tv
      else if truthy cv then cv
      else .vs ""
    let chunkText := safely_get_text chunk
    pyGet chunk "type" (.vs "") >>= fun typeV =>
    pyLowerV typeV >>= fun chunkType =>
    pyGet chunk "id" (.vs "") >>= fun chunkId =>
    if chunkText = "" && !truthy raw then pure (fd, processed)
    else
      let ctl := if chunkText ≠ "" then pyLower chunkText else ""
      (if truthy raw then pyLowerV raw >>= fun s => pure (strIn "<table" s)
       else pure false) >>= fun hasHtmlTable =>
      (if truthy raw then
        match raw with
        | .vs t => pure (t.data.contains '|')
        | _ => Except.error "TypeError: argument is not iterable"
       else pure false) >>= fun hasMarkdownTable =>
      let looksLikeTable := chunkType = "table" || hasHtmlTable || hasMarkdownTable
      if !looksLikeTable then pure (fd, processed)
      else
        let rawStr := rawTextOf raw
        match parse_table_rows rawStr chunkText with
        | (header, rows) =>
          tableBlock chunk fd processed raw rawStr chunkText chunkType chunkId
              header rows >>= fun afterTable =>
            match afterTable with
            | none => pure (fd, processed)
            | some (fd4, processed4) =>
              let fd5 :=
                if incomeTerms.any (fun t => strIn t ctl) then
                  extract_income_statement chunkText fd4
                else if balanceTerms.any (fun t => strIn t ctl) then
                  extract_balance_sheet chunkText fd4
                else if cashTerms.any (fun t => strIn t ctl) then
                  extract_cash_flow chunkText fd4
                else fd4
              pure (fd5, processed4)

/-- The loop body of the full-markdown pass.  The call
`parse_table_rows(str(html_table), table_text)` is modelled with the
serialize/re-parse round trip as the identity on the parsed table: the parse
is `tableParse` of the table with `table_text` as the fallback text (the same
cascade, including the exception leak, as the top-level parse). -/
def mdLoop (idx : Nat) (st : FinancialData × List Value) :
    List HTable → FinancialData × List Value
  | [] => st
  | t :: rest =>
    let (fd, processed) := st
    let tableText := t.text
    let (header, rows) := tableParse t tableText
    let st2 :=
      if header ≠ [] || rows ≠ [] then
        let tableId : Value := .vs ("full-markdown-table-" ++ toString idx)
        if vmem tableId processed then st
        else
          let entry : TableEntry :=
            { id := tableId
              title := infer_table_title tableText
              header := header
              rows := rows
              page := .null
              box := .null
              type := "markdown_table" }
          let fd2 := { fd with tables := some (tablesOf fd ++ [entry]) }
          let fd3 := if rows ≠ [] then extract_metrics_from_table_entry entry fd2 else fd2
          (fd3, tableId :: processed)
      else st
    mdLoop (idx + 1) st2 rest

/-- The full-markdown pass. -/
def markdownPhase (resp : Value) (st : FinancialData × List Value) :
    Except String (FinancialData × List Value) :=
  pyInS "markdown" resp >>= fun b =>
    if !b then pure st
    else
      pyIndexS resp "markdown" >>= fun mv =>
        if !truthy mv then pure st
        else
          pyLowerV mv >>= fun lowered =>
            let fullS := match mv with | .vs t => t | _ => ""
            if BS4_AVAILABLE && strIn "<table" lowered then
              pure (mdLoop 0 st (parseHtmlTables fullS))
            else pure st

/-- The chunks block (`if "chunks" in ade_response:`): metadata scan, table
pass, full-markdown pass. -/
def chunksPhase (resp : Value) (fd : FinancialData) : Except String FinancialData :=
  pyInS "chunks" resp >>= fun b =>
    if !b then pure fd
    else
      pyIndexS resp "chunks" >>= fun chunksV =>
        pyIter chunksV >>= fun items =>
          items.foldlM firstPassStep fd >>= fun fd1 =>
            items.foldlM secondPassStep (fd1, ([] : List Value)) >>= fun st =>
              markdownPhase resp st >>= fun st2 =>
                pure st2.1

/-- The fallback regex pass (runs only if both statement buckets are empty). -/
def fallbackPhase (pdfText : String) (fd : FinancialData) : FinancialData :=
  if !truthyIncome fd.income_statement && !truthyBalance fd.balance_sheet then
    let fd1 :=
      match extract_metric pdfText ["revenue", "net sales", "total revenue"] with
      | some v =>
        if !decIsZero v then
          let fdm := append_metric fd "Revenue" (some v)
          { fdm with income_statement := { fdm.income_statement with revenue := some v } }
        else fd
      | none => fd
    let fd2 :=
      match extract_metric pdfText ["net income", "net earnings", "net profit"] with
      | some v =>
        if !decIsZero v then
          let fdm := append_metric fd1 "Net Income" (some v)
          { fdm with income_statement := { fdm.income_statement with net_income := some v } }
        else fd1
      | none => fd1
    let fd3 :=
      match extract_metric pdfText ["total assets"] with
      | some v =>
        if !decIsZero v then
          let fdm := append_metric fd2 "Total Assets" (some v)
          { fdm with balance_sheet := { fdm.balance_sheet with total_assets := some v } }
        else fd2
      | none => fd2
    match extract_metric pdfText
        ["cash flow from operations", "operating cash flow",
         "net cash provided by operating activities"] with
    | some v =>
      if !decIsZero v then
        let fdm := append_metric fd3 "Operating Cash Flow" (some v)
        { fdm with cash_flow := { fdm.cash_flow with operating_cash_flow := some v } }
      else fd3
    | none => fd3
  else fd

/-- The fee-document block. -/
def feePhase (pdfText : String) (fd : FinancialData) : FinancialData :=
  match extract_metric pdfText ["fee", "total fee", "amount", "total amount", "payment"] with
  | some v =>
    if !decIsZero v && !fd.key_metrics.any (fun m => pyLower m.name = "fee amount") then
      append_metric fd "Fee Amount" (some v)
    else fd
  | none => fd

/-- The document-type inference block. -/
def docTypePhase (pdfText : String) (fd : FinancialData) : FinancialData :=
  if beqV fd.metadata.document_type (.vs "Document") then
    let pl := pyLower pdfText
    let dt : Option String :=
      if strIn "invoice" pl then some "Invoice"
      else if strIn "fee" pl || strIn "payment" pl then some "Fee Document"
      else if strIn "statement" pl && strIn "financial" pl then some "Financial Statement"
      else if strIn "balance sheet" pl then some "Balance Sheet"
      else if strIn "income statement" pl || strIn "profit and loss" pl then
        some "Income Statement"
      else if strIn "cash flow" pl then some "Cash Flow Statement"
      else if strIn "receipt" pl then some "Receipt"
      else if strIn "report" pl then some "Financial Report"
      else none
    match dt with
    | some t => { fd with metadata := { fd.metadata with document_type := .vs t } }
    | none => fd
  else fd

/-- The body of `map_to_financial_schema` inside its outer `try`. -/
def mapBody (resp : Value) (pdfText : String) : Except String FinancialData :=
  metadataPhase resp initFD >>= fun fd1 =>
    chunksPhase resp fd1 >>= fun fd2 =>
      pure (docTypePhase pdfText (feePhase pdfText (fallbackPhase pdfText fd2)))

/-- The embedding of `map_to_financial_schema`: the outer `except` handler
returns the minimal error record. -/
def map_to_financial_schema (resp : Value) (pdfText : String) : FinancialData :=
  match mapBody resp pdfText with
  | .ok fd => fd
  | .error e => errorFD e

/-! ## Specification predicates -/

/-- The result of the structured-markup strategy alone (the value the HTML
block of `parse_table_rows` computes before deciding whether to return it);
empty when the strategy finds no table or raises before completing. -/
def htmlStrategyResult (raw : String) : List String × List Row :=
  match parseHtmlTable raw with
  | some t =>
    match htmlLogicE t with
    | .ok p => p
    | .error _ => ([], [])
  | none => ([], [])

/-- Case-insensitive uniqueness of metric names. -/
def MetricsUniq (fd : FinancialData) : Prop :=
  List.Pairwise (fun a b => pyLower a.name ≠ pyLower b.name) fd.key_metrics

/-- A key is a positional overflow name `col_N` with `N` beyond the header. -/
def OverflowKey (header : List String) (k : String) : Prop :=
  ∃ n : Nat, n > header.length ∧ k = "col_" ++ toString n

/-- Every key of the row is a header column or an overflow name. -/
def RowKeysOk (header : List String) (row : Row) : Prop :=
  ∀ k ∈ rowKeys row, k ∈ header ∨ OverflowKey header k

/-- The header invariant over a header/rows pair. -/
def PairInv (p : List String × List Row) : Prop :=
  p.2 ≠ [] → p.1 ≠ [] ∧ ∀ row ∈ p.2, RowKeysOk p.1 row

/-- The invariant carried through the mapper (the header invariant over the
tables does not survive the exception leak of `parse_table_rows`, so only
metric uniqueness is carried). -/
def MapInv (fd : FinancialData) : Prop := MetricsUniq fd

/-! ## Concrete inputs for the claims -/

/-- C7: HTML table with an explicit header row. -/
def C7markup : String :=
  "<table><tr><th>Item</th><th>Amount</th></tr><tr><td>Total Assets</td><td>1,000,000</td></tr></table>"

/-- C7: a response with that table as a single chunk. -/
def C7resp : Value :=
  .vobj (toVO [("chunks", .varr (toVL [.vobj (toVO
    [("id", .vs "chunk-1"), ("type", .vs "table"), ("markdown", .vs C7markup)])]))])

/-- C6: two-column data-only table. -/
def C6markup : String :=
  "<table><tr><td>Name</td><td>John</td></tr><tr><td>Date</td><td>2024-01-01</td></tr></table>"

/-- C3: table whose second data row is wider than the promoted header. -/
def C3markup : String :=
  "<table><tr><td>ab</td><td>cd</td></tr><tr><td>x</td><td>y</td><td>z</td></tr></table>"

/-- C3: a response with that table as a single chunk. -/
def C3resp : Value :=
  .vobj (toVO [("chunks", .varr (toVL [.vobj (toVO
    [("id", .vs "chunk-9"), ("type", .vs "table"), ("markdown", .vs C3markup)])]))])

/-- C3: a table whose second row has a non-numeric `colspan`, so the HTML
strategy raises after the first row was appended to the shared rows list. -/
def C3leak : String :=
  "<table><tr><td>a1</td><td>b</td></tr><tr><td colspan=\"x\">c</td></tr></table>"

/-- C9: a metric already present in the record of the witness. -/
def mW : Metric :=
  { name := "Total Assets", value := ⟨1000000, 0⟩, unit := "USD",
    period := "Current Period", source := none }

/-- C9: a record that already holds a "Total Assets" metric. -/
def fdW : FinancialData := { initFD with key_metrics := [mW] }

/-- C2: a table chunk duplicated inside the full aggregate markdown. -/
def C2markup : String :=
  "<table><tr><td>Total Fee</td><td>5,000</td></tr></table>"

/-- C2: the same source table as an individual chunk and in the full markdown. -/
def C2resp : Value :=
  .vobj (toVO
    [("chunks", .varr (toVL [.vobj (toVO
      [("id", .vs "chunk-0"), ("type", .vs "table"), ("markdown", .vs C2markup)])])),
     ("markdown", .vs C2markup)])

/-- C5: a malformed response whose `chunks` value is not iterable. -/
def C5resp : Value := .vobj (toVO [("chunks", .vb true)])

/-- C5: a second malformed response, for the witness. -/
def C5wresp : Value := .vobj (toVO [("chunks", .vn 5)])

/-- C8: markup with both a structured table tag and pipe characters. -/
def C8markup : String :=
  "<table><tr><td>a|b</td><td>1,000</td></tr></table>"

/-- C10: a line with both debit and credit markers, neither trailing. -/
def C10line : String := "cr dr balance 1,200"

/-- C4: nested entity escape that breaks idempotence. -/
def C4input : String := "&amp;amp;"

/-- C4: an entity-free witness input. -/
def C4winput : String := "a  <br> b"

/-! ## Predicates for the idempotence analysis of the normalizer -/

/-- No two adjacent characters both satisfy `p`: the collapse substitutions
`\n{2,}` → `\n` and `[ \t]{2,}` → one space find nothing to replace. -/
def noAdjRun (p : Char → Bool) : List Char → Bool
  | [] => true
  | [_] => true
  | c1 :: c2 :: rest => !(p c1 && p c2) && noAdjRun p (c2 :: rest)

/-- Newline character test. -/
def isNL (c : Char) : Bool := c = '\n'

/-- Every `<` either opens an empty pair `<>` (on which both tag substitutions
find no match and emit the two characters literally) or has no `>` anywhere
after it (so no tag match can ever complete). -/
def ltOk : List Char → Bool
  | [] => true
  | '<' :: '>' :: rest => ltOk rest
  | '<' :: rest => !rest.contains '>'
  | _ :: rest => ltOk rest

/-! # Helper lemmas -/

theorem foldl_preserve {α β : Type} (P : β → Prop) (f : β → α → β)
    (hf : ∀ b a, P b → P (f b a)) :
    ∀ (l : List α) (b : β), P b → P (l.foldl f b) := by
  intro l
  induction l with
  | nil => intro b hb; exact hb
  | cons a l ih => intro b hb; exact ih (f b a) (hf b a hb)

theorem bind_ok_elim {α β : Type} {e : Except String α} {f : α → Except String β} {b : β}
    (h : (e >>= f) = .ok b) : ∃ a, e = .ok a ∧ f a = .ok b := by
  cases e with
  | error err => exact absurd h (by simp [Bind.bind, Except.bind])
  | ok a => exact ⟨a, rfl, h⟩

theorem foldlM_preserve {α β : Type} (P : β → Prop) (f : β → α → Except String β)
    (hf : ∀ b a b', P b → f b a = .ok b' → P b') :
    ∀ (l : List α) (b b' : β), P b → List.foldlM f b l = .ok b' → P b' := by
  intro l
  induction l with
  | nil =>
    intro b b' hb h
    simp only [List.foldlM_nil, pure, Except.pure] at h
    cases h
    exact hb
  | cons a l ih =>
    intro b b' hb h
    rw [List.foldlM_cons] at h
    obtain ⟨b2, hb2, h2⟩ := bind_ok_elim h
    exact ih b2 b' (hf b a b2 hb hb2) h2

theorem append_metric_key_metrics_sub (fd : FinancialData) (name : String)
    (v : Option Dec) (u p : String) (s : Value) :
    (append_metric fd name v u p s).key_metrics = fd.key_metrics ∨
    ∃ m, (append_metric fd name v u p s).key_metrics = fd.key_metrics ++ [m] ∧
      m.name = name := by
  unfold append_metric
  split
  · exact Or.inl rfl
  · split
    · exact Or.inl rfl
    · exact Or.inr ⟨_, rfl, rfl⟩

theorem append_metric_tables (fd : FinancialData) (name : String)
    (v : Option Dec) (u p : String) (s : Value) :
    (append_metric fd name v u p s).tables = fd.tables := by
  unfold append_metric
  split
  · rfl
  · split
    · rfl
    · rfl

theorem append_metric_uniq (fd : FinancialData) (name : String)
    (v : Option Dec) (u p : String) (s : Value) (h : MetricsUniq fd) :
    MetricsUniq (append_metric fd name v u p s) := by
  unfold append_metric
  split
  · exact h
  · split
    · exact h
    · next hany =>
      unfold MetricsUniq at h ⊢
      rw [List.pairwise_append]
      refine ⟨h, List.pairwise_singleton _ _, ?_⟩
      intro a ha b hb
      have hb2 : b.name = name := by
        simp only [List.mem_singleton] at hb
        rw [hb]
      rw [hb2]
      intro heq
      have hx : fd.key_metrics.any (fun m => pyLower m.name = pyLower name) = true := by
        rw [List.any_eq_true]
        exact ⟨a, ha, by simp [heq]⟩
      exact hany hx

theorem append_metric_inv (fd : FinancialData) (name : String)
    (v : Option Dec) (u p : String) (s : Value) (h : MapInv fd) :
    MapInv (append_metric fd name v u p s) :=
  append_metric_uniq fd name v u p s h

theorem metricsRowStep_inv (header : List String) (src : Value)
    (fd : FinancialData) (row : Row) (h : MapInv fd) :
    MapInv (metricsRowStep header src fd row) := by
  unfold metricsRowStep
  dsimp only
  repeat' split
  all_goals first
    | exact h
    | exact append_metric_inv _ _ _ _ _ _ h

theorem extract_metrics_inv (entry : TableEntry) (fd : FinancialData) (h : MapInv fd) :
    MapInv (extract_metrics_from_table_entry entry fd) := by
  unfold extract_metrics_from_table_entry
  exact foldl_preserve MapInv _ (fun b a hb => metricsRowStep_inv _ _ b a hb) entry.rows fd h

theorem incomeLineStep_inv (fd : FinancialData) (line : String) (h : MapInv fd) :
    MapInv (incomeLineStep fd line) := by
  unfold incomeLineStep
  dsimp only
  repeat' split
  all_goals first
    | exact h
    | exact append_metric_inv _ _ _ _ _ _ h

theorem balanceLineStep_inv (fd : FinancialData) (line : String) (h : MapInv fd) :
    MapInv (balanceLineStep fd line) := by
  unfold balanceLineStep
  dsimp only
  repeat' split
  all_goals first
    | exact h
    | exact append_metric_inv _ _ _ _ _ _ h

theorem cashLineStep_inv (fd : FinancialData) (line : String) (h : MapInv fd) :
    MapInv (cashLineStep fd line) := by
  unfold cashLineStep
  dsimp only
  repeat' split
  all_goals first
    | exact h
    | exact append_metric_inv _ _ _ _ _ _ h

theorem extract_income_statement_inv (t : String) (fd : FinancialData) (h : MapInv fd) :
    MapInv (extract_income_statement t fd) :=
  foldl_preserve MapInv _ (fun b a hb => incomeLineStep_inv b a hb) _ fd h

theorem extract_balance_sheet_inv (t : String) (fd : FinancialData) (h : MapInv fd) :
    MapInv (extract_balance_sheet t fd) :=
  foldl_preserve MapInv _ (fun b a hb => balanceLineStep_inv b a hb) _ fd h

theorem extract_cash_flow_inv (t : String) (fd : FinancialData) (h : MapInv fd) :
    MapInv (extract_cash_flow t fd) :=
  foldl_preserve MapInv _ (fun b a hb => cashLineStep_inv b a hb) _ fd h

theorem insertAssoc_keys (l : List (String × String)) (k v k' : String)
    (h : k' ∈ (insertAssoc l k v).map Prod.fst) :
    k' ∈ l.map Prod.fst ∨ k' = k := by
  unfold insertAssoc at h
  split at h
  · rw [List.map_map] at h
    obtain ⟨p, hp, hk⟩ := List.mem_map.mp h
    by_cases hc : p.1 = k
    · right
      simp only [Function.comp_apply, hc, if_pos] at hk
      exact hk.symm
    · left
      simp only [Function.comp_apply, hc, if_neg, not_false_eq_true] at hk
      exact hk ▸ List.mem_map_of_mem Prod.fst hp
  · rw [List.map_append] at h
    rcases List.mem_append.mp h with h1 | h2
    · exact Or.inl h1
    · right
      simpa using h2

theorem colName_ok (header : List String) (idx : Nat) :
    colName header idx ∈ header ∨ OverflowKey header (colName header idx) := by
  unfold colName
  cases hg : header.get? idx with
  | some hh => exact Or.inl (List.get?_mem hg)
  | none =>
    right
    refine ⟨idx + 1, ?_, rfl⟩
    have := List.get?_eq_none.mp hg
    omega

theorem mkRowGo_keys (header : List String) :
    ∀ (cells : List String) (idx : Nat) (acc : List (String × String)),
      (∀ k ∈ acc.map Prod.fst, k ∈ header ∨ OverflowKey header k) →
      ∀ k ∈ (mkRowGo header idx acc cells).map Prod.fst,
        k ∈ header ∨ OverflowKey header k := by
  intro cells
  induction cells with
  | nil => intro idx acc hacc k hk; exact hacc k hk
  | cons c cs ih =>
    intro idx acc hacc k hk
    refine ih (idx + 1) _ ?_ k hk
    intro k2 hk2
    rcases insertAssoc_keys acc (colName header idx) c k2 hk2 with h1 | h2
    · exact hacc k2 h1
    · exact h2 ▸ colName_ok header idx

theorem mkRow_keysOk (header : List String) (cells : List String) :
    RowKeysOk header (mkRow header cells) := by
  intro k hk
  exact mkRowGo_keys header cells 0 [] (by intro k2 hk2; cases hk2) k hk

theorem range_map_ne_nil (n : Nat) (f : Nat → String) (h : n ≠ 0) :
    (List.range n).map f ≠ [] := by
  intro he
  rw [List.map_eq_nil_iff, List.range_eq_nil] at he
  exact h he

theorem trLoopE_inv :
    ∀ (trs : List HTr) (idx : Nat) (header : List String) (rows : List Row)
      (h2 : List String) (r2 : List Row),
      trLoopE idx header rows trs = .ok (h2, r2) →
      (rows ≠ [] → header ≠ []) → (∀ r ∈ rows, RowKeysOk header r) →
      (r2 ≠ [] → h2 ≠ []) ∧ (∀ r ∈ r2, RowKeysOk h2 r) := by
  intro trs
  induction trs with
  | nil =>
    intro idx header rows h2 r2 heq hh hr
    have heq2 : (header, rows) = (h2, r2) := by
      injection heq
    rw [Prod.mk.injEq] at heq2
    rw [← heq2.1, ← heq2.2]
    exact ⟨hh, hr⟩
  | cons tr rest ih =>
    intro idx header rows h2 r2 heq hh hr
    rw [trLoopE] at heq
    dsimp only at heq
    split at heq
    · next hcond =>
      rw [Bool.and_eq_true] at hcond
      have hhdr : header = [] := List.isEmpty_iff.mp hcond.2
      have hrows : rows = [] := by
        by_contra hne
        exact absurd hhdr (hh hne)
      subst hrows
      exact ih (idx + 1) _ [] h2 r2 heq (fun hne => absurd rfl hne)
        (fun r hrx => absurd hrx (List.not_mem_nil r))
    · split at heq
      · exact ih (idx + 1) header rows h2 r2 heq hh hr
      · split at heq
        · cases heq
        · next cells hok =>
          split at heq
          · exact ih (idx + 1) header rows h2 r2 heq hh hr
          · next hcells =>
            split at heq
            · next hemp =>
              have hhdr : header = [] := List.isEmpty_iff.mp hemp
              have hrows : rows = [] := by
                by_contra hne
                exact absurd hhdr (hh hne)
              subst hrows
              split at heq
              · exact ih (idx + 1) _ [] h2 r2 heq (fun hne => absurd rfl hne)
                  (fun r hrx => absurd hrx (List.not_mem_nil r))
              · refine ih (idx + 1) _ _ h2 r2 heq ?_ ?_
                · intro _
                  split
                  · intro hx; cases hx
                  · apply range_map_ne_nil
                    intro hzero
                    have hnil : cells = [] := List.eq_nil_of_length_eq_zero hzero
                    apply hcells
                    rw [hnil]
                    rfl
                · intro r hrx
                  rw [List.nil_append, List.mem_singleton] at hrx
                  subst hrx
                  exact mkRow_keysOk _ _
            · next hemp =>
              have hhdr : header ≠ [] := fun hn => hemp (List.isEmpty_iff.mpr hn)
              refine ih (idx + 1) header _ h2 r2 heq (fun _ => hhdr) ?_
              intro r hrx
              rcases List.mem_append.mp hrx with hold | hnew
              · exact hr r hold
              · rw [List.mem_singleton] at hnew
                subst hnew
                exact mkRow_keysOk _ _

theorem htmlLogicE_inv (t : HTable) (p : List String × List Row)
    (h : htmlLogicE t = .ok p) : PairInv p := by
  unfold htmlLogicE at h
  dsimp only at h
  rcases hloop : trLoopE 0 (match t.theadCells with
      | some cs => cs.map (fun c => c.text)
      | none => []) []
      (match t.tbodyTrs with | some tb => tb | none => t.allTrs) with st | ⟨hh, rr⟩
  · rw [hloop] at h
    cases h
  · rw [hloop] at h
    dsimp only at h
    have hloop2 := trLoopE_inv (match t.tbodyTrs with | some tb => tb | none => t.allTrs) 0
      (match t.theadCells with | some cs => cs.map (fun c => c.text) | none => []) [] hh rr
      hloop (fun hne => absurd rfl hne) (by intro r2 hr2; cases hr2)
    cases rr with
    | nil =>
      have hp : (hh, ([] : List Row)) = p := Except.ok.inj h
      rw [← hp]
      intro hne
      exact absurd rfl hne
    | cons row rs =>
      have hne : hh ≠ [] := hloop2.1 (by intro hx; cases hx)
      have hemp : hh.isEmpty = false := by
        rw [List.isEmpty_eq_false_iff_exists_mem]
        cases hh with
        | nil => exact absurd rfl hne
        | cons a l => exact ⟨a, List.mem_cons_self a l⟩
      have hp : ((if hh.isEmpty then rowKeys row else hh), row :: rs) = p :=
        Except.ok.inj h
      rw [← hp]
      intro _
      simp only [hemp, Bool.false_eq_true, if_false]
      exact ⟨hne, hloop2.2⟩

theorem wsStrategyGo_inv :
    ∀ (lines : List String) (fbh : List String) (rows : List Row),
      (rows ≠ [] → fbh ≠ []) → (∀ r ∈ rows, RowKeysOk fbh r) →
      PairInv (wsStrategyGo fbh rows lines) := by
  intro lines
  induction lines with
  | nil =>
    intro fbh rows h1 h2
    rw [wsStrategyGo]
    split
    · next hne =>
      rw [Bool.not_eq_true', List.isEmpty_eq_false_iff_exists_mem] at hne
      intro _
      refine ⟨h1 ?_, h2⟩
      obtain ⟨x, hx⟩ := hne
      intro hnil
      rw [hnil] at hx
      cases hx
    · intro hne; exact absurd rfl hne
  | cons line rest ih =>
    intro fbh rows h1 h2
    rw [wsStrategyGo]
    split
    · exact ih fbh rows h1 h2
    · split
      · next hemp =>
        rw [List.isEmpty_iff] at hemp
        have hrows : rows = [] := by
          by_contra hne
          exact absurd hemp (h1 hne)
        subst hrows
        exact ih _ [] (fun hne => absurd rfl hne) (by intro r hr; cases hr)
      · next hemp =>
        rw [List.isEmpty_iff] at hemp
        refine ih fbh _ (fun _ => hemp) ?_
        intro r hr
        rcases List.mem_append.mp hr with hold | hnew
        · exact h2 r hold
        · rw [List.mem_singleton] at hnew
          subst hnew
          exact mkRow_keysOk _ _

theorem splitOnCharGo_ne_nil (sep : Char) :
    ∀ (cs : List Char) (cur : List Char), splitOnCharGo sep cur cs ≠ [] := by
  intro cs
  induction cs with
  | nil => intro cur h; cases h
  | cons c rest ih =>
    intro cur
    rw [splitOnCharGo]
    split
    · intro h; cases h
    · exact ih (c :: cur)

theorem pipeOrWs_inv (s : String) : PairInv (pipeOrWsStrategy s []) := by
  unfold pipeOrWsStrategy
  dsimp only
  split
  · -- markdownLines.length ≥ 2
    split
    · -- parsedRows.length ≥ 2
      split
      · next header restRows hrows =>
        split
        · -- the real pipe case
          intro _
          constructor
          · -- the header is a split result, hence a non-empty cell list
            have hmem : header ∈ (header :: restRows) := List.mem_cons_self _ _
            rw [← hrows] at hmem
            obtain ⟨line, _, hline⟩ := List.mem_filterMap.mp hmem
            split at hline
            · cases hline
            · split at hline
              · cases hline
              · injection hline with hline2
                intro hnil
                rw [← hline2, List.map_eq_nil_iff] at hnil
                exact splitOnCharGo_ne_nil '|' _ [] hnil
          · intro r hr
            rw [List.nil_append] at hr
            obtain ⟨rc, _, hrc⟩ := List.mem_map.mp hr
            rw [← hrc]
            exact mkRow_keysOk _ _
        · exact wsStrategyGo_inv _ [] [] (fun hne => absurd rfl hne)
            (fun r hr => absurd hr (List.not_mem_nil r))
      · exact wsStrategyGo_inv _ [] [] (fun hne => absurd rfl hne)
          (fun r hr => absurd hr (List.not_mem_nil r))
    · exact wsStrategyGo_inv _ [] [] (fun hne => absurd rfl hne)
        (fun r hr => absurd hr (List.not_mem_nil r))
  · exact wsStrategyGo_inv _ [] [] (fun hne => absurd rfl hne)
      (fun r hr => absurd hr (List.not_mem_nil r))

theorem tableParse_ok_inv (t : HTable) (norm : String) (p : List String × List Row)
    (h : htmlLogicE t = .ok p) : PairInv (tableParse t norm) := by
  rcases p with ⟨hh, rr⟩
  have ht : tableParse t norm =
      if hh ≠ [] || rr ≠ [] then (hh, rr) else pipeOrWsStrategy norm [] := by
    unfold tableParse
    rw [h]
  rw [ht]
  split
  · exact htmlLogicE_inv t (hh, rr) h
  · exact pipeOrWs_inv norm

theorem parse_table_rows_inv (raw norm : String) (hab : htmlAborted raw = false) :
    PairInv (parse_table_rows raw norm) := by
  unfold parse_table_rows
  unfold htmlAborted at hab
  split
  · next hguard =>
    rw [if_pos hguard] at hab
    rcases hp : parseHtmlTable raw with _ | t
    · exact pipeOrWs_inv norm
    · rw [hp] at hab
      dsimp only at hab
      rcases hl : htmlLogicE t with st | p
      · rw [hl] at hab
        dsimp only at hab
        exact absurd hab (by decide)
      · exact tableParse_ok_inv t norm p hl
  · next hguard =>
    exact pipeOrWs_inv norm

theorem pure_ok_elim {α : Type} {a b : α} (h : (pure a : Except String α) = .ok b) :
    a = b := by
  simp only [pure, Except.pure, Except.ok.injEq] at h
  exact h

theorem tables_append_inv (fd : FinancialData) (entry : TableEntry)
    (hinv : MapInv fd) :
    MapInv { fd with tables := some (tablesOf fd ++ [entry]) } := hinv

theorem mdCompanyStep_inv (md : Value) (fd fd' : FinancialData)
    (h : mdCompanyStep md fd = .ok fd') (hinv : MapInv fd) : MapInv fd' := by
  unfold mdCompanyStep at h
  split at h
  · obtain ⟨b, _, h⟩ := bind_ok_elim h
    split at h
    · obtain ⟨v, _, h⟩ := bind_ok_elim h
      rw [← pure_ok_elim h]; exact hinv
    · rw [← pure_ok_elim h]; exact hinv
  · rw [← pure_ok_elim h]; exact hinv

theorem mdDateStep_inv (md : Value) (fd fd' : FinancialData)
    (h : mdDateStep md fd = .ok fd') (hinv : MapInv fd) : MapInv fd' := by
  unfold mdDateStep at h
  split at h
  · obtain ⟨b, _, h⟩ := bind_ok_elim h
    split at h
    · obtain ⟨v, _, h⟩ := bind_ok_elim h
      rw [← pure_ok_elim h]; exact hinv
    · rw [← pure_ok_elim h]; exact hinv
  · rw [← pure_ok_elim h]; exact hinv

theorem mdTypeStep_inv (md : Value) (fd fd' : FinancialData)
    (h : mdTypeStep md fd = .ok fd') (hinv : MapInv fd) : MapInv fd' := by
  unfold mdTypeStep at h
  obtain ⟨b, _, h⟩ := bind_ok_elim h
  split at h
  · obtain ⟨v, _, h⟩ := bind_ok_elim h
    rw [← pure_ok_elim h]; exact hinv
  · rw [← pure_ok_elim h]; exact hinv

theorem metadataPhase_inv (resp : Value) (fd fd' : FinancialData)
    (h : metadataPhase resp fd = .ok fd') (hinv : MapInv fd) : MapInv fd' := by
  unfold metadataPhase at h
  obtain ⟨hasMd, _, h⟩ := bind_ok_elim h
  split at h
  · rw [← pure_ok_elim h]; exact hinv
  · obtain ⟨md, _, h⟩ := bind_ok_elim h
    obtain ⟨fd1, h1, h⟩ := bind_ok_elim h
    obtain ⟨fd2, h2, h⟩ := bind_ok_elim h
    exact mdTypeStep_inv md fd2 fd' h
      (mdDateStep_inv md fd1 fd2 h2 (mdCompanyStep_inv md fd fd1 h1 hinv))

theorem firstPassStep_inv (fd : FinancialData) (chunk : Value) (fd' : FinancialData)
    (h : firstPassStep fd chunk = .ok fd') (hinv : MapInv fd) : MapInv fd' := by
  unfold firstPassStep at h
  obtain ⟨_, _, h⟩ := bind_ok_elim h
  split at h
  · rw [← pure_ok_elim h]; exact hinv
  · rw [← pure_ok_elim h]
    repeat' split
    all_goals exact hinv

theorem recordAppend_inv (g : FinancialData) (nm : String) (v : Option Dec)
    (md : MetaData) (is : IncomeStatement) (bs : BalanceSheet) (cf : CashFlow)
    (sm : Option String) (hg : MapInv g) :
    MapInv { metadata := md, income_statement := is, balance_sheet := bs,
             cash_flow := cf,
             key_metrics := (append_metric g nm v "USD" "Current Period" .null).key_metrics,
             tables := (append_metric g nm v "USD" "Current Period" .null).tables,
             summary := sm } :=
  append_metric_uniq g nm v "USD" "Current Period" .null hg

theorem fallbackPhase_inv (pdfText : String) (fd : FinancialData) (hinv : MapInv fd) :
    MapInv (fallbackPhase pdfText fd) := by
  unfold fallbackPhase
  dsimp only
  repeat' split
  all_goals repeat' first
    | exact hinv
    | apply recordAppend_inv

theorem feePhase_inv (pdfText : String) (fd : FinancialData) (hinv : MapInv fd) :
    MapInv (feePhase pdfText fd) := by
  unfold feePhase
  repeat' split
  all_goals first
    | exact hinv
    | exact append_metric_inv _ _ _ _ _ _ hinv

theorem docTypePhase_inv (pdfText : String) (fd : FinancialData) (hinv : MapInv fd) :
    MapInv (docTypePhase pdfText fd) := by
  unfold docTypePhase
  dsimp only
  repeat' split
  all_goals exact hinv

theorem tableBlock_inv (chunk : Value) (fd : FinancialData) (processed : List Value)
    (raw : Value) (rawStr chunkText chunkType : String) (chunkId : Value)
    (header : List String) (rows : List Row)
    (res : Option (FinancialData × List Value))
    (h : tableBlock chunk fd processed raw rawStr chunkText chunkType chunkId
      header rows = .ok res)
    (hinv : MapInv fd) :
    ∀ fd4 p4, res = some (fd4, p4) → MapInv fd4 := by
  unfold tableBlock at h
  split at h
  · dsimp only at h
    split at h
    all_goals (
      split at h
      · intro fd4 p4 hres
        rw [← pure_ok_elim h] at hres
        cases hres
      · obtain ⟨grounding, _, h⟩ := bind_ok_elim h
        obtain ⟨page, _, h⟩ := bind_ok_elim h
        obtain ⟨box, _, h⟩ := bind_ok_elim h
        intro fd4 p4 hres
        rw [← pure_ok_elim h] at hres
        injection hres with hres2
        rw [Prod.mk.injEq] at hres2
        rw [← hres2.1]
        split
        · exact extract_metrics_inv _ _ (tables_append_inv fd _ hinv)
        · exact tables_append_inv fd _ hinv)
  · intro fd4 p4 hres
    rw [← pure_ok_elim h] at hres
    injection hres with hres2
    rw [Prod.mk.injEq] at hres2
    rw [← hres2.1]
    exact hinv

theorem secondPassStep_inv (st : FinancialData × List Value) (chunk : Value)
    (st' : FinancialData × List Value)
    (h : secondPassStep st chunk = .ok st') (hinv : MapInv st.1) : MapInv st'.1 := by
  rcases st with ⟨fd, processed⟩
  unfold secondPassStep at h
  obtain ⟨mdv, _, h⟩ := bind_ok_elim h
  obtain ⟨tv, _, h⟩ := bind_ok_elim h
  obtain ⟨cv, _, h⟩ := bind_ok_elim h
  obtain ⟨typeV, _, h⟩ := bind_ok_elim h
  obtain ⟨chunkType, _, h⟩ := bind_ok_elim h
  obtain ⟨chunkId, _, h⟩ := bind_ok_elim h
  generalize hraw : (if truthy mdv = true then mdv
    else if truthy tv = true then tv
    else if truthy cv = true then cv
    else Value.vs "") = raw at h
  clear hraw
  split at h
  · rw [← pure_ok_elim h]; exact hinv
  · obtain ⟨hasHtmlTable, _, h⟩ := bind_ok_elim h
    obtain ⟨hasMarkdownTable, _, h⟩ := bind_ok_elim h
    dsimp only at h
    rcases hpr : parse_table_rows (rawTextOf raw) (safely_get_text chunk)
      with ⟨header, rows⟩
    rw [hpr] at h
    dsimp only at h
    by_cases hlt :
        (!(decide (chunkType = "table") || hasHtmlTable || hasMarkdownTable)) = true
    · rw [if_pos hlt] at h
      rw [← pure_ok_elim h]; exact hinv
    · rw [if_neg hlt] at h
      obtain ⟨afterTable, hafter, h⟩ := bind_ok_elim h
      cases afterTable with
      | none => rw [← pure_ok_elim h]; exact hinv
      | some p =>
        rcases p with ⟨fd4, processed4⟩
        have hfd4 : MapInv fd4 :=
          tableBlock_inv chunk fd processed raw _ _ _ chunkId header rows _
            hafter hinv fd4 processed4 rfl
        rw [← pure_ok_elim h]
        dsimp only
        repeat' first
          | exact hfd4
          | exact extract_income_statement_inv _ _ hfd4
          | exact extract_balance_sheet_inv _ _ hfd4
          | exact extract_cash_flow_inv _ _ hfd4
          | split


theorem mdLoop_inv (ts : List HTable) :
    ∀ (idx : Nat) (st : FinancialData × List Value), MapInv st.1 →
      MapInv (mdLoop idx st ts).1 := by
  induction ts with
  | nil => intro idx st h; exact h
  | cons t rest ih =>
    intro idx st hinv
    rcases st with ⟨fd, processed⟩
    simp only [mdLoop]
    apply ih
    rcases hpe : tableParse t t.text with ⟨header, rows⟩
    dsimp only
    repeat' split
    all_goals first
      | exact hinv
      | exact extract_metrics_inv _ _ (tables_append_inv fd _ hinv)

theorem markdownPhase_inv (resp : Value) (st st' : FinancialData × List Value)
    (h : markdownPhase resp st = .ok st') (hinv : MapInv st.1) : MapInv st'.1 := by
  unfold markdownPhase at h
  obtain ⟨b, _, h⟩ := bind_ok_elim h
  split at h
  · rw [← pure_ok_elim h]; exact hinv
  · obtain ⟨mv, _, h⟩ := bind_ok_elim h
    split at h
    · rw [← pure_ok_elim h]; exact hinv
    · obtain ⟨lowered, _, h⟩ := bind_ok_elim h
      repeat' split at h
      all_goals rw [← pure_ok_elim h]
      all_goals first
        | exact hinv
        | exact mdLoop_inv _ _ _ hinv

theorem chunksPhase_inv (resp : Value) (fd fd' : FinancialData)
    (h : chunksPhase resp fd = .ok fd') (hinv : MapInv fd) : MapInv fd' := by
  unfold chunksPhase at h
  obtain ⟨b, _, h⟩ := bind_ok_elim h
  split at h
  · rw [← pure_ok_elim h]; exact hinv
  · obtain ⟨chunksV, _, h⟩ := bind_ok_elim h
    obtain ⟨items, _, h⟩ := bind_ok_elim h
    obtain ⟨fd1, h1, h⟩ := bind_ok_elim h
    obtain ⟨st, h2, h⟩ := bind_ok_elim h
    obtain ⟨st2, h3, h⟩ := bind_ok_elim h
    rw [← pure_ok_elim h]
    have hfd1 : MapInv fd1 :=
      foldlM_preserve MapInv firstPassStep
        (fun b a b' hb hab => firstPassStep_inv b a b' hab hb) items fd fd1 hinv h1
    have hst : MapInv st.1 :=
      foldlM_preserve (fun p => MapInv p.1) secondPassStep
        (fun b a b' hb hab => secondPassStep_inv b a b' hab hb) items
        (fd1, ([] : List Value)) st hfd1 h2
    exact markdownPhase_inv resp st st2 h3 hst

theorem initFD_inv : MapInv initFD := List.Pairwise.nil

theorem errorFD_inv (e : String) : MapInv (errorFD e) := List.Pairwise.nil

theorem mapBody_inv (resp : Value) (pdfText : String) (fd' : FinancialData)
    (h : mapBody resp pdfText = .ok fd') : MapInv fd' := by
  unfold mapBody at h
  obtain ⟨fd1, h1, h⟩ := bind_ok_elim h
  obtain ⟨fd2, h2, h⟩ := bind_ok_elim h
  rw [← pure_ok_elim h]
  exact docTypePhase_inv _ _ (feePhase_inv _ _ (fallbackPhase_inv _ _
    (chunksPhase_inv resp fd1 fd2 h2 (metadataPhase_inv resp initFD fd1 h1 initFD_inv))))

theorem mapSchema_inv (resp : Value) (pdfText : String) :
    MapInv (map_to_financial_schema resp pdfText) := by
  unfold map_to_financial_schema
  split
  · next fd hfd => exact mapBody_inv resp pdfText fd hfd
  · next e _ => exact errorFD_inv e

/-! ## Idempotence of the normalizer: stage lemmas -/

theorem crlf_mem {c : Char} : ∀ cs : List Char, c ∈ crlfNorm cs → c ∈ cs ∨ c = '\n' := by
  intro cs
  induction cs using crlfNorm.induct with
  | case1 => intro h; exact absurd h (List.not_mem_nil c)
  | case2 rest ih =>
    intro h
    rcases List.mem_cons.mp h with h | h
    · right; exact h
    · rcases ih h with h | h
      · left; simp [h]
      · right; exact h
  | case3 rest hne ih =>
    intro h
    rw [crlfNorm.eq_def] at h
    split at h
    · exact absurd h (List.not_mem_nil c)
    · next rest1 heq =>
      injection heq with _ h2
      exact absurd h2 (fun he => hne rest1 he)
    · next rest1 heq =>
      injection heq with _ h2
      subst h2
      rcases List.mem_cons.mp h with h | h
      · right; exact h
      · rcases ih h with h | h
        · left; exact List.mem_cons_of_mem _ h
        · right; exact h
    · next c1 rest1 hne1 hne2 heq =>
      injection heq with h1 h2
      exact absurd h1 (fun he => hne2 he.symm)
  | case4 c1 rest hne1 hne2 ih =>
    intro h
    rw [crlfNorm.eq_def] at h
    split at h
    · exact absurd h (List.not_mem_nil c)
    · next rest1 heq =>
      injection heq with h1 _
      exact absurd h1 hne2
    · next rest1 heq =>
      injection heq with h1 _
      exact absurd h1 hne2
    · next c2 rest1 _ _ heq =>
      injection heq with h1 h2
      subst h1; subst h2
      rcases List.mem_cons.mp h with h | h
      · left; simp [h]
      · rcases ih h with h | h
        · left; exact List.mem_cons_of_mem _ h
        · right; exact h

theorem crlf_id : ∀ cs : List Char, '\x0d' ∉ cs → crlfNorm cs = cs := by
  intro cs
  induction cs using crlfNorm.induct with
  | case1 => intro _; rfl
  | case2 rest ih => intro h; exact absurd (List.mem_cons_self _ _) h
  | case3 rest hne ih => intro h; exact absurd (List.mem_cons_self _ _) h
  | case4 c1 rest hne1 hne2 ih =>
    intro h
    rw [crlfNorm.eq_def]
    split
    · next heq => exact absurd heq (by simp)
    · next rest1 heq =>
      injection heq with h1 _
      exact absurd h1 hne2
    · next rest1 heq =>
      injection heq with h1 _
      exact absurd h1 hne2
    · next c2 rest1 _ _ heq =>
      injection heq with h1 h2
      subst h1; subst h2
      rw [ih (fun hm => h (List.mem_cons_of_mem _ hm))]

theorem crlf_noCR : ∀ cs : List Char, '\x0d' ∉ crlfNorm cs := by
  intro cs
  induction cs using crlfNorm.induct with
  | case1 => exact List.not_mem_nil _
  | case2 rest ih =>
    intro h
    rcases List.mem_cons.mp h with h | h
    · exact absurd h (by decide)
    · exact ih h
  | case3 rest hne ih =>
    intro h
    rw [crlfNorm.eq_def] at h
    split at h
    · exact List.not_mem_nil _ h
    · next rest1 heq =>
      injection heq with _ h2
      exact absurd h2 (fun he => hne rest1 he)
    · next rest1 heq =>
      injection heq with _ h2
      subst h2
      rcases List.mem_cons.mp h with h | h
      · exact absurd h (by decide)
      · exact ih h
    · next c1 rest1 hne1 hne2 heq =>
      injection heq with h1 h2
      exact absurd h1 (fun he => hne2 he.symm)
  | case4 c1 rest hne1 hne2 ih =>
    intro h
    rw [crlfNorm.eq_def] at h
    split at h
    · exact List.not_mem_nil _ h
    · next rest1 heq =>
      injection heq with h1 _
      exact absurd h1 hne2
    · next rest1 heq =>
      injection heq with h1 _
      exact absurd h1 hne2
    · next c2 rest1 _ _ heq =>
      injection heq with h1 h2
      subst h1; subst h2
      rcases List.mem_cons.mp h with h | h
      · exact absurd h.symm hne2
      · exact ih h

theorem unescape_id : ∀ cs : List Char, '&' ∉ cs → unescapeHtml cs = cs := by
  intro cs
  induction cs using unescapeHtml.induct with
  | case1 => intro _; rfl
  | case2 rest ih => intro h; exact absurd (List.mem_cons_self _ _) h
  | case3 rest ih => intro h; exact absurd (List.mem_cons_self _ _) h
  | case4 rest ih => intro h; exact absurd (List.mem_cons_self _ _) h
  | case5 rest ih => intro h; exact absurd (List.mem_cons_self _ _) h
  | case6 rest ih => intro h; exact absurd (List.mem_cons_self _ _) h
  | case7 rest ih => intro h; exact absurd (List.mem_cons_self _ _) h
  | case8 c rest h1 h2 h3 h4 h5 h6 ih =>
    intro h
    have hc : c ≠ '&' := fun he => h (by rw [he]; exact List.mem_cons_self _ _)
    rw [unescapeHtml.eq_def]
    split
    · next heq => exact absurd heq (by simp)
    · next rest1 heq => injection heq with hh _; exact absurd hh hc
    · next rest1 heq => injection heq with hh _; exact absurd hh hc
    · next rest1 heq => injection heq with hh _; exact absurd hh hc
    · next rest1 heq => injection heq with hh _; exact absurd hh hc
    · next rest1 heq => injection heq with hh _; exact absurd hh hc
    · next rest1 heq => injection heq with hh _; exact absurd hh hc
    · next c2 rest1 _ _ _ _ _ _ heq =>
      injection heq with hh1 hh2
      subst hh1; subst hh2
      rw [ih (fun hm => h (List.mem_cons_of_mem _ hm))]

theorem nbsp_id (cs : List Char) (h : nbspChar ∉ cs) : nbspToSpace cs = cs := by
  induction cs with
  | nil => rfl
  | cons c rest ih =>
    have hc : ¬(c = nbspChar) := fun he => h (by rw [← he]; exact List.mem_cons_self _ _)
    have h2 : nbspToSpace rest = rest := ih (fun hm => h (List.mem_cons_of_mem _ hm))
    simp only [nbspToSpace, List.map_cons, if_neg hc]
    exact congrArg (List.cons c) h2

theorem nbsp_mem {c : Char} (cs : List Char) (h : c ∈ nbspToSpace cs) : c ∈ cs ∨ c = ' ' := by
  rcases List.mem_map.mp h with ⟨a, ha, he⟩
  by_cases hn : a = nbspChar
  · rw [if_pos hn] at he; right; exact he.symm
  · rw [if_neg hn] at he; left; rw [← he]; exact ha

theorem nbsp_noNbsp (cs : List Char) : nbspChar ∉ nbspToSpace cs := by
  intro h
  rcases List.mem_map.mp h with ⟨a, _, he⟩
  by_cases hn : a = nbspChar
  · rw [if_pos hn] at he; exact absurd he (by decide)
  · rw [if_neg hn] at he; exact hn (he ▸ rfl)

theorem noAdj_tail {p : Char → Bool} {c : Char} {rest : List Char}
    (h : noAdjRun p (c :: rest) = true) : noAdjRun p rest = true := by
  cases rest with
  | nil => rfl
  | cons c2 rest2 =>
    have h2 : (!(p c && p c2) && noAdjRun p (c2 :: rest2)) = true := h
    exact (Bool.and_eq_true_iff.mp h2).2

theorem noAdj_cons {p : Char → Bool} {c : Char} {rest : List Char}
    (h : noAdjRun p rest = true)
    (hh : ∀ c2, rest.head? = some c2 → (p c && p c2) = false) :
    noAdjRun p (c :: rest) = true := by
  cases rest with
  | nil => rfl
  | cons c2 rest2 =>
    show (!(p c && p c2) && noAdjRun p (c2 :: rest2)) = true
    rw [hh c2 rfl, h]
    rfl

theorem nl_mem {c : Char} : ∀ (cs : List Char) (b : Bool), c ∈ nlGo b cs → c ∈ cs := by
  intro cs
  induction cs with
  | nil => intro b h; exact absurd h (List.not_mem_nil c)
  | cons c1 rest ih =>
    intro b h
    by_cases hc : c1 = '\n'
    · subst hc
      cases b with
      | true =>
        have h2 : c ∈ nlGo true rest := h
        exact List.mem_cons_of_mem _ (ih true h2)
      | false =>
        have h2 : c ∈ '\n' :: nlGo true rest := h
        rcases List.mem_cons.mp h2 with h3 | h3
        · rw [h3]; exact List.mem_cons_self _ _
        · exact List.mem_cons_of_mem _ (ih true h3)
    · rw [nlGo.eq_def] at h
      dsimp only at h
      rw [if_neg hc] at h
      rcases List.mem_cons.mp h with h3 | h3
      · rw [h3]; exact List.mem_cons_self _ _
      · exact List.mem_cons_of_mem _ (ih false h3)


theorem nl_cons_ne {c1 : Char} (hc : ¬c1 = '\n') (b : Bool) (rest : List Char) :
    nlGo b (c1 :: rest) = c1 :: nlGo false rest := by
  rw [nlGo.eq_def]
  dsimp only
  rw [if_neg hc]

theorem nl_shape : ∀ cs : List Char,
    noAdjRun isNL (nlGo false cs) = true ∧ noAdjRun isNL (nlGo true cs) = true ∧
      (nlGo true cs).head? ≠ some '\n' := by
  intro cs
  induction cs with
  | nil => exact ⟨rfl, rfl, by simp [nlGo]⟩
  | cons c1 rest ih =>
    by_cases hc : c1 = '\n'
    · subst hc
      refine ⟨?_, ih.2.1, ih.2.2⟩
      show noAdjRun isNL ('\n' :: nlGo true rest) = true
      refine noAdj_cons ih.2.1 ?_
      intro c2 hh
      have hne : c2 ≠ '\n' := fun he => ih.2.2 (he ▸ hh)
      simp [isNL, hne]
    · have hb : ∀ b, nlGo b (c1 :: rest) = c1 :: nlGo false rest := fun b => nl_cons_ne hc b rest
      have hcons : noAdjRun isNL (c1 :: nlGo false rest) = true := by
        refine noAdj_cons ih.1 ?_
        intro c2 _
        simp [isNL, hc]
      refine ⟨?_, ?_, ?_⟩
      · rw [hb false]; exact hcons
      · rw [hb true]; exact hcons
      · rw [hb true]
        simp [hc]

theorem nl_id : ∀ cs : List Char, noAdjRun isNL cs = true →
    nlGo false cs = cs ∧ (cs.head? ≠ some '\n' → nlGo true cs = cs) := by
  intro cs
  induction cs with
  | nil => exact fun _ => ⟨rfl, fun _ => rfl⟩
  | cons c1 rest ih =>
    intro h
    have ht := ih (noAdj_tail h)
    by_cases hc : c1 = '\n'
    · subst hc
      have hr : rest.head? ≠ some '\n' := by
        cases rest with
        | nil => simp
        | cons c2 rest2 =>
          intro he
          have he2 : c2 = '\n' := by
            have := Option.some.inj he
            exact this
          have hx : (!(isNL '\n' && isNL c2) && noAdjRun isNL (c2 :: rest2)) = true := h
          rw [he2] at hx
          simp [isNL] at hx
      refine ⟨?_, fun hh => absurd rfl hh⟩
      show '\n' :: nlGo true rest = '\n' :: rest
      rw [ht.2 hr]
    · refine ⟨?_, fun _ => ?_⟩
      · rw [nl_cons_ne hc false rest, ht.1]
      · rw [nl_cons_ne hc true rest, ht.1]

theorem sp_two (c1 c2 : Char) (rest : List Char) :
    collapseSp (c1 :: c2 :: rest) =
      if isSpTab c1 && isSpTab c2 then ' ' :: collapseSpSkip rest
      else c1 :: collapseSp (c2 :: rest) := rfl

theorem spSkip_cons (c : Char) (rest : List Char) :
    collapseSpSkip (c :: rest) =
      if isSpTab c then collapseSpSkip rest else c :: collapseSp rest := rfl

theorem sp_cons_nonsp {c : Char} (hc : isSpTab c = false) :
    ∀ rest : List Char, collapseSp (c :: rest) = c :: collapseSp rest := by
  intro rest
  cases rest with
  | nil => rfl
  | cons c2 rest2 =>
    rw [sp_two]
    simp [hc]

theorem noAdj_pair {p : Char → Bool} {c1 c2 : Char} {rest : List Char}
    (h : noAdjRun p (c1 :: rest) = true) (hh : rest.head? = some c2) :
    (p c1 && p c2) = false := by
  cases rest with
  | nil => exact absurd hh (by simp)
  | cons c3 rest2 =>
    have h3 : c3 = c2 := Option.some.inj hh
    subst h3
    have h2 : (!(p c1 && p c3) && noAdjRun p (c3 :: rest2)) = true := h
    have h4 := (Bool.and_eq_true_iff.mp h2).1
    cases hx : (p c1 && p c3) with
    | false => rfl
    | true => rw [hx] at h4; exact absurd h4 (by decide)

theorem sp_mem : ∀ (n : Nat) (cs : List Char), cs.length ≤ n → ∀ c : Char,
    (c ∈ collapseSp cs → c ∈ cs ∨ c = ' ') ∧
    (c ∈ collapseSpSkip cs → c ∈ cs ∨ c = ' ') := by
  intro n
  induction n with
  | zero =>
    intro cs hl c
    rw [List.length_eq_zero.mp (Nat.le_zero.mp hl)]
    exact ⟨fun h => absurd h (List.not_mem_nil c), fun h => absurd h (List.not_mem_nil c)⟩
  | succ n ih =>
    intro cs hl c
    cases cs with
    | nil => exact ⟨fun h => absurd h (List.not_mem_nil c), fun h => absurd h (List.not_mem_nil c)⟩
    | cons c1 rest =>
      have hlr : rest.length ≤ n := Nat.le_of_succ_le_succ hl
      constructor
      · intro h
        cases rest with
        | nil =>
          rcases List.mem_singleton.mp h with h2
          rw [h2]; left; exact List.mem_singleton_self _
        | cons c2 rest2 =>
          rw [sp_two] at h
          split at h
          · rcases List.mem_cons.mp h with h2 | h2
            · right; exact h2
            · have hl2 : rest2.length ≤ n := by
                have := hlr; simp at this ⊢; omega
              rcases (ih rest2 hl2 c).2 h2 with h3 | h3
              · left; exact List.mem_cons_of_mem _ (List.mem_cons_of_mem _ h3)
              · right; exact h3
          · rcases List.mem_cons.mp h with h2 | h2
            · left; rw [h2]; exact List.mem_cons_self _ _
            · rcases (ih (c2 :: rest2) hlr c).1 h2 with h3 | h3
              · left; exact List.mem_cons_of_mem _ h3
              · right; exact h3
      · intro h
        rw [spSkip_cons] at h
        split at h
        · rcases (ih rest hlr c).2 h with h3 | h3
          · left; exact List.mem_cons_of_mem _ h3
          · right; exact h3
        · rcases List.mem_cons.mp h with h2 | h2
          · left; rw [h2]; exact List.mem_cons_self _ _
          · rcases (ih rest hlr c).1 h2 with h3 | h3
            · left; exact List.mem_cons_of_mem _ h3
            · right; exact h3

theorem sp_shape : ∀ (n : Nat) (cs : List Char), cs.length ≤ n →
    noAdjRun isSpTab (collapseSp cs) = true ∧
    noAdjRun isSpTab (collapseSpSkip cs) = true ∧
    ((collapseSp cs).head? = cs.head? ∨
      ∃ c0, cs.head? = some c0 ∧ isSpTab c0 = true ∧ (collapseSp cs).head? = some ' ') ∧
    (∀ c2, (collapseSpSkip cs).head? = some c2 → isSpTab c2 = false) := by
  intro n
  induction n with
  | zero =>
    intro cs hl
    rw [List.length_eq_zero.mp (Nat.le_zero.mp hl)]
    exact ⟨rfl, rfl, Or.inl rfl, fun c2 h => Option.noConfusion h⟩
  | succ n ih =>
    intro cs hl
    cases cs with
    | nil => exact ⟨rfl, rfl, Or.inl rfl, fun c2 h => Option.noConfusion h⟩
    | cons c1 rest =>
      have hlr : rest.length ≤ n := Nat.le_of_succ_le_succ hl
      have hskip : noAdjRun isSpTab (collapseSpSkip (c1 :: rest)) = true ∧
          (∀ c2, (collapseSpSkip (c1 :: rest)).head? = some c2 → isSpTab c2 = false) := by
        rw [spSkip_cons]
        by_cases hsp : isSpTab c1 = true
        · rw [if_pos hsp]
          exact ⟨(ih rest hlr).2.1, (ih rest hlr).2.2.2⟩
        · rw [if_neg hsp]
          have hspf : isSpTab c1 = false := Bool.eq_false_iff.mpr hsp
          constructor
          · refine noAdj_cons (ih rest hlr).1 ?_
            intro c2 _
            rw [hspf]
            rfl
          · intro c2 hh
            have : c1 = c2 := Option.some.inj hh
            rw [← this]
            exact hspf
      refine ⟨?_, hskip.1, ?_, hskip.2⟩
      · cases rest with
        | nil => rfl
        | cons c2 rest2 =>
          have hl2 : rest2.length ≤ n := by simp at hl; omega
          rw [sp_two]
          by_cases hb : (isSpTab c1 && isSpTab c2) = true
          · rw [if_pos hb]
            refine noAdj_cons (ih rest2 hl2).2.1 ?_
            intro c3 hh
            rw [(ih rest2 hl2).2.2.2 c3 hh]
            simp
          · rw [if_neg hb]
            have hbf : (isSpTab c1 && isSpTab c2) = false := Bool.eq_false_iff.mpr hb
            refine noAdj_cons (ih (c2 :: rest2) hlr).1 ?_
            intro c3 hh
            rcases (ih (c2 :: rest2) hlr).2.2.1 with hc | ⟨c0, hc0, hc0sp, hcsp⟩
            · have : c3 = c2 := by
                rw [hc] at hh
                exact (Option.some.inj hh).symm
              rw [this]
              exact hbf
            · have hc2 : c2 = c0 := Option.some.inj hc0
              rw [← hc2] at hc0sp
              have : c3 = ' ' := by
                rw [hcsp] at hh
                exact (Option.some.inj hh).symm
              rw [this]
              have h1f : isSpTab c1 = false := by
                cases hx : isSpTab c1 with
                | false => rfl
                | true => rw [hx, hc0sp] at hbf; exact absurd hbf (by decide)
              rw [h1f]
              rfl
      · cases rest with
        | nil => left; rfl
        | cons c2 rest2 =>
          rw [sp_two]
          by_cases hb : (isSpTab c1 && isSpTab c2) = true
          · rw [if_pos hb]
            right
            exact ⟨c1, rfl, (Bool.and_eq_true_iff.mp hb).1, rfl⟩
          · rw [if_neg hb]
            left
            rfl

theorem sp_id : ∀ (n : Nat) (cs : List Char), cs.length ≤ n →
    noAdjRun isSpTab cs = true → collapseSp cs = cs := by
  intro n
  induction n with
  | zero =>
    intro cs hl _
    rw [List.length_eq_zero.mp (Nat.le_zero.mp hl)]
    rfl
  | succ n ih =>
    intro cs hl h
    cases cs with
    | nil => rfl
    | cons c1 rest =>
      cases rest with
      | nil => rfl
      | cons c2 rest2 =>
        have hpair : (isSpTab c1 && isSpTab c2) = false := noAdj_pair h rfl
        rw [sp_two, if_neg (by rw [hpair]; exact Bool.false_ne_true)]
        rw [ih (c2 :: rest2) (Nat.le_of_succ_le_succ hl) (noAdj_tail h)]

theorem sp_noAdj {p : Char → Bool} (hsp : p ' ' = false) :
    ∀ (n : Nat) (cs : List Char), cs.length ≤ n → noAdjRun p cs = true →
    noAdjRun p (collapseSp cs) = true ∧ noAdjRun p (collapseSpSkip cs) = true := by
  intro n
  induction n with
  | zero =>
    intro cs hl _
    rw [List.length_eq_zero.mp (Nat.le_zero.mp hl)]
    exact ⟨rfl, rfl⟩
  | succ n ih =>
    intro cs hl h
    cases cs with
    | nil => exact ⟨rfl, rfl⟩
    | cons c1 rest =>
      have hlr : rest.length ≤ n := Nat.le_of_succ_le_succ hl
      have hskip : noAdjRun p (collapseSpSkip (c1 :: rest)) = true := by
        rw [spSkip_cons]
        by_cases hc : isSpTab c1 = true
        · rw [if_pos hc]
          exact (ih rest hlr (noAdj_tail h)).2
        · rw [if_neg hc]
          refine noAdj_cons (ih rest hlr (noAdj_tail h)).1 ?_
          intro c2 hh
          rcases (sp_shape n rest hlr).2.2.1 with hx | ⟨c0, hc0, _, hcsp⟩
          · refine noAdj_pair h ?_
            rw [← hx]
            exact hh
          · have : c2 = ' ' := by
              rw [hcsp] at hh
              exact (Option.some.inj hh).symm
            rw [this, hsp]
            simp
      refine ⟨?_, hskip⟩
      cases rest with
      | nil => exact h
      | cons c2 rest2 =>
        have hl2 : rest2.length ≤ n := by simp at hl; omega
        rw [sp_two]
        by_cases hb : (isSpTab c1 && isSpTab c2) = true
        · rw [if_pos hb]
          refine noAdj_cons (ih rest2 hl2 (noAdj_tail (noAdj_tail h))).2 ?_
          intro c3 _
          rw [hsp]
          simp
        · rw [if_neg hb]
          refine noAdj_cons (ih (c2 :: rest2) hlr (noAdj_tail h)).1 ?_
          intro c3 hh
          rcases (sp_shape n (c2 :: rest2) hlr).2.2.1 with hx | ⟨c0, hc0, _, hcsp⟩
          · refine noAdj_pair h ?_
            rw [← hx]
            exact hh
          · have : c3 = ' ' := by
              rw [hcsp] at hh
              exact (Option.some.inj hh).symm
            rw [this, hsp]
            simp

theorem ltOk_cons_ne {c : Char} (hc : c ≠ '<') (rest : List Char) :
    ltOk (c :: rest) = ltOk rest := by
  rw [ltOk.eq_def]
  split
  · next heq => exact absurd heq.symm (by simp)
  · next rest1 heq =>
    injection heq with h1 _
    exact absurd h1 hc
  · next rest1 heq =>
    injection heq with h1 _
    exact absurd h1 hc
  · next c2 rest1 _ _ heq =>
    injection heq with h1 h2
    rw [h2]

theorem ltOk_ltgt (rest : List Char) : ltOk ('<' :: '>' :: rest) = ltOk rest := rfl

theorem ltOk_lt_ne {c : Char} (hc : c ≠ '>') (rest : List Char) :
    ltOk ('<' :: c :: rest) = !(c :: rest).contains '>' := by
  rw [ltOk.eq_def]
  split
  · next heq => exact absurd heq.symm (by simp)
  · next rest1 heq =>
    injection heq with _ h2
    injection h2 with h3 _
    exact absurd h3 hc
  · next rest1 heq =>
    injection heq with _ h2
    rw [h2]
  · next c2 rest1 hne1 hne2 heq =>
    injection heq with h1 _
    exact absurd h1.symm hne2

theorem ltOk_lt_nogt {rest : List Char} (h : '>' ∉ rest) : ltOk ('<' :: rest) = true := by
  cases rest with
  | nil => rfl
  | cons c r2 =>
    have hc : c ≠ '>' := fun he => h (he ▸ List.mem_cons_self _ _)
    rw [ltOk_lt_ne hc]
    cases hx : (c :: r2).contains '>' with
    | false => rfl
    | true => exact absurd (List.mem_of_elem_eq_true hx) h

theorem ltOk_of_nogt : ∀ cs : List Char, '>' ∉ cs → ltOk cs = true := by
  intro cs
  induction cs with
  | nil => intro _; rfl
  | cons c rest ih =>
    intro h
    by_cases hc : c = '<'
    · subst hc
      exact ltOk_lt_nogt (fun hm => h (List.mem_cons_of_mem _ hm))
    · rw [ltOk_cons_ne hc]
      exact ih (fun hm => h (List.mem_cons_of_mem _ hm))

theorem ltOk_lt_elim {rest : List Char} (h : ltOk ('<' :: rest) = true) :
    (∃ rest2, rest = '>' :: rest2 ∧ ltOk rest2 = true) ∨ '>' ∉ rest := by
  cases rest with
  | nil => right; exact List.not_mem_nil _
  | cons c r2 =>
    by_cases hc : c = '>'
    · subst hc
      left
      exact ⟨r2, rfl, by rw [ltOk_ltgt] at h; exact h⟩
    · right
      rw [ltOk_lt_ne hc] at h
      intro hm
      have h2 : (c :: r2).contains '>' = true := List.elem_eq_true_of_mem hm
      rw [h2] at h
      exact absurd h (by decide)

theorem tagGo_mem {c : Char} : ∀ (obuf : Option (List Char)) (cs : List Char),
    c ∈ tagGo obuf cs → c ∈ cs ∨ c = ' ' ∨ c = '<' ∨ c = '>' ∨ c ∈ obuf.getD [] := by
  intro obuf cs
  induction obuf, cs using tagGo.induct with
  | case1 => intro h; exact absurd h (List.not_mem_nil c)
  | case2 rest ih =>
    intro h
    rcases ih h with h2 | h2 | h2 | h2 | h2
    · left; exact List.mem_cons_of_mem _ h2
    · right; left; exact h2
    · right; right; left; exact h2
    · right; right; right; left; exact h2
    · exact absurd h2 (List.not_mem_nil c)
  | case3 c1 rest hc ih =>
    intro h
    rw [tagGo.eq_def] at h
    dsimp only at h
    rw [if_neg hc] at h
    rcases List.mem_cons.mp h with h2 | h2
    · left; rw [h2]; exact List.mem_cons_self _ _
    · rcases ih h2 with h3 | h3 | h3 | h3 | h3
      · left; exact List.mem_cons_of_mem _ h3
      · right; left; exact h3
      · right; right; left; exact h3
      · right; right; right; left; exact h3
      · exact absurd h3 (List.not_mem_nil c)
  | case4 buf =>
    intro h
    rcases List.mem_cons.mp h with h2 | h2
    · right; right; left; exact h2
    · right; right; right; right
      exact List.mem_reverse.mp h2
  | case5 buf rest hemp ih =>
    intro h
    rw [tagGo.eq_def] at h
    dsimp only at h
    rw [if_pos rfl, if_pos hemp] at h
    rcases List.mem_cons.mp h with h2 | h2
    · right; right; left; exact h2
    · rcases List.mem_cons.mp h2 with h3 | h3
      · right; right; right; left; exact h3
      · rcases ih h3 with h4 | h4 | h4 | h4 | h4
        · left; exact List.mem_cons_of_mem _ h4
        · right; left; exact h4
        · right; right; left; exact h4
        · right; right; right; left; exact h4
        · exact absurd h4 (List.not_mem_nil c)
  | case6 buf rest hemp ih =>
    intro h
    rw [tagGo.eq_def] at h
    dsimp only at h
    rw [if_pos rfl, if_neg hemp] at h
    rcases List.mem_cons.mp h with h2 | h2
    · right; left; exact h2
    · rcases ih h2 with h4 | h4 | h4 | h4 | h4
      · left; exact List.mem_cons_of_mem _ h4
      · right; left; exact h4
      · right; right; left; exact h4
      · right; right; right; left; exact h4
      · exact absurd h4 (List.not_mem_nil c)
  | case7 buf c1 rest hc ih =>
    intro h
    rw [tagGo.eq_def] at h
    dsimp only at h
    rw [if_neg hc] at h
    rcases ih h with h4 | h4 | h4 | h4 | h4
    · left; exact List.mem_cons_of_mem _ h4
    · right; left; exact h4
    · right; right; left; exact h4
    · right; right; right; left; exact h4
    · rcases List.mem_cons.mp h4 with h5 | h5
      · left; rw [h5]; exact List.mem_cons_self _ _
      · right; right; right; right; exact h5

theorem tagGo_good : ∀ (obuf : Option (List Char)) (cs : List Char),
    '>' ∉ obuf.getD [] → ltOk (tagGo obuf cs) = true := by
  intro obuf cs
  induction obuf, cs using tagGo.induct with
  | case1 => intro _; rfl
  | case2 rest ih => intro _; exact ih (List.not_mem_nil _)
  | case3 c1 rest hc ih =>
    intro _
    rw [tagGo.eq_def]
    dsimp only
    rw [if_neg hc, ltOk_cons_ne hc]
    exact ih (List.not_mem_nil _)
  | case4 buf =>
    intro h
    refine ltOk_lt_nogt ?_
    intro hm
    exact h (List.mem_reverse.mp hm)
  | case5 buf rest hemp ih =>
    intro _
    rw [tagGo.eq_def]
    dsimp only
    rw [if_pos rfl, if_pos hemp, ltOk_ltgt]
    exact ih (List.not_mem_nil _)
  | case6 buf rest hemp ih =>
    intro _
    rw [tagGo.eq_def]
    dsimp only
    rw [if_pos rfl, if_neg hemp, ltOk_cons_ne (by decide)]
    exact ih (List.not_mem_nil _)
  | case7 buf c1 rest hc ih =>
    intro h
    rw [tagGo.eq_def]
    dsimp only
    rw [if_neg hc]
    refine ih ?_
    intro hm
    rcases List.mem_cons.mp hm with h2 | h2
    · exact hc h2.symm
    · exact h h2

theorem tag_nogt : ∀ (cs : List Char) (buf : List Char), '>' ∉ cs →
    tagGo (some buf) cs = '<' :: buf.reverse ++ cs := by
  intro cs
  induction cs with
  | nil => intro buf _; simp [tagGo]
  | cons c rest ih =>
    intro buf h
    have hc : c ≠ '>' := fun he => h (he ▸ List.mem_cons_self _ _)
    rw [tagGo.eq_def]
    dsimp only
    rw [if_neg hc]
    rw [ih (c :: buf) (fun hm => h (List.mem_cons_of_mem _ hm))]
    simp

theorem tag_id : ∀ (n : Nat) (cs : List Char), cs.length ≤ n → ltOk cs = true →
    tagGo none cs = cs := by
  intro n
  induction n with
  | zero =>
    intro cs hl _
    rw [List.length_eq_zero.mp (Nat.le_zero.mp hl)]
    rfl
  | succ n ih =>
    intro cs hl h
    cases cs with
    | nil => rfl
    | cons c1 rest =>
      by_cases hc : c1 = '<'
      · subst hc
        rcases ltOk_lt_elim h with ⟨rest2, hr, h2⟩ | hng
        · subst hr
          show '<' :: '>' :: tagGo none rest2 = '<' :: '>' :: rest2
          have hl2 : rest2.length ≤ n := by simp at hl; omega
          rw [ih rest2 hl2 h2]
        · show tagGo (some []) rest = '<' :: rest
          rw [tag_nogt rest [] hng]
          rfl
      · rw [tagGo.eq_def]
        dsimp only
        rw [if_neg hc]
        rw [ltOk_cons_ne hc] at h
        rw [ih rest (Nat.le_of_succ_le_succ hl) h]

theorem lbStep_matched {st : LBState} {c : Char} (h : lbStep st c = .matched) : c = '>' := by
  cases st <;> (unfold lbStep at h; repeat' split at h) <;> first | assumption | cases h

theorem lb_nogt : ∀ (n : Nat) (cs : List Char), cs.length ≤ n → '>' ∉ cs →
    lbGo none cs = cs ∧ ∀ (st : LBState) (buf : List Char),
      lbGo (some (st, buf)) cs = '<' :: buf.reverse ++ cs := by
  intro n
  induction n with
  | zero =>
    intro cs hl h
    rw [List.length_eq_zero.mp (Nat.le_zero.mp hl)]
    exact ⟨rfl, fun st buf => by simp [lbGo]⟩
  | succ n ih =>
    intro cs hl h
    cases cs with
    | nil => exact ⟨rfl, fun st buf => by simp [lbGo]⟩
    | cons c rest =>
      have hlr : rest.length ≤ n := Nat.le_of_succ_le_succ hl
      have hrest : '>' ∉ rest := fun hm => h (List.mem_cons_of_mem _ hm)
      have hc : c ≠ '>' := fun he => h (he ▸ List.mem_cons_self _ _)
      constructor
      · by_cases hlt : c = '<'
        · subst hlt
          show lbGo (some (.ws1, [])) rest = '<' :: rest
          rw [(ih rest hlr hrest).2 .ws1 []]
          rfl
        · rw [lbGo.eq_def]
          dsimp only
          rw [if_neg hlt]
          rw [(ih rest hlr hrest).1]
      · intro st buf
        rw [lbGo.eq_def]
        dsimp only
        cases hstep : lbStep st c with
        | cont st2 =>
          dsimp only
          rw [(ih rest hlr hrest).2 st2 (c :: buf)]
          simp
        | matched => exact absurd (lbStep_matched hstep) hc
        | failed =>
          dsimp only
          by_cases hlt : c = '<'
          · subst hlt
            rw [if_pos rfl]
            rw [(ih rest hlr hrest).2 .ws1 []]
            simp
          · rw [if_neg hlt]
            rw [(ih rest hlr hrest).1]

theorem lbGo_mem {c : Char} : ∀ (n : Nat) (cs : List Char), cs.length ≤ n →
    ∀ (ost : Option (LBState × List Char)), c ∈ lbGo ost cs →
      c ∈ cs ∨ c = '\n' ∨ c = '<' ∨ c ∈ (ost.elim [] Prod.snd) := by
  intro n
  induction n with
  | zero =>
    intro cs hl ost h
    rw [List.length_eq_zero.mp (Nat.le_zero.mp hl)] at h
    cases ost with
    | none => exact absurd h (List.not_mem_nil c)
    | some p =>
      rcases p with ⟨st, buf⟩
      have h2 : c ∈ '<' :: buf.reverse := h
      rcases List.mem_cons.mp h2 with h3 | h3
      · right; right; left; exact h3
      · right; right; right; exact List.mem_reverse.mp h3
  | succ n ih =>
    intro cs hl ost h
    cases cs with
    | nil =>
      cases ost with
      | none => exact absurd h (List.not_mem_nil c)
      | some p =>
        rcases p with ⟨st, buf⟩
        have h2 : c ∈ '<' :: buf.reverse := h
        rcases List.mem_cons.mp h2 with h3 | h3
        · right; right; left; exact h3
        · right; right; right; exact List.mem_reverse.mp h3
    | cons c1 rest =>
      have hlr : rest.length ≤ n := Nat.le_of_succ_le_succ hl
      cases ost with
      | none =>
        by_cases hlt : c1 = '<'
        · subst hlt
          have h2 : c ∈ lbGo (some (.ws1, [])) rest := h
          rcases ih rest hlr _ h2 with h3 | h3 | h3 | h3
          · left; exact List.mem_cons_of_mem _ h3
          · right; left; exact h3
          · right; right; left; exact h3
          · exact absurd h3 (List.not_mem_nil c)
        · rw [lbGo.eq_def] at h
          dsimp only at h
          rw [if_neg hlt] at h
          rcases List.mem_cons.mp h with h3 | h3
          · left; rw [h3]; exact List.mem_cons_self _ _
          · rcases ih rest hlr none h3 with h4 | h4 | h4 | h4
            · left; exact List.mem_cons_of_mem _ h4
            · right; left; exact h4
            · right; right; left; exact h4
            · exact absurd h4 (List.not_mem_nil c)
      | some p =>
        rcases p with ⟨st, buf⟩
        rw [lbGo.eq_def] at h
        dsimp only at h
        rcases hstep : lbStep st c1 with st2 | _ | _
        · rw [hstep] at h
          dsimp only at h
          rcases ih rest hlr (some (st2, c1 :: buf)) h with h4 | h4 | h4 | h4
          · left; exact List.mem_cons_of_mem _ h4
          · right; left; exact h4
          · right; right; left; exact h4
          · rcases List.mem_cons.mp h4 with h5 | h5
            · left; rw [h5]; exact List.mem_cons_self _ _
            · right; right; right; exact h5
        · rw [hstep] at h
          dsimp only at h
          rcases List.mem_cons.mp h with h3 | h3
          · right; left; exact h3
          · rcases ih rest hlr none h3 with h4 | h4 | h4 | h4
            · left; exact List.mem_cons_of_mem _ h4
            · right; left; exact h4
            · right; right; left; exact h4
            · exact absurd h4 (List.not_mem_nil c)
        · rw [hstep] at h
          dsimp only at h
          by_cases hlt : c1 = '<'
          · rw [if_pos hlt] at h
            rcases List.mem_cons.mp h with h3 | h3
            · right; right; left; exact h3
            · rcases List.mem_append.mp h3 with h4 | h4
              · right; right; right; exact List.mem_reverse.mp h4
              · rcases ih rest hlr (some (.ws1, [])) h4 with h5 | h5 | h5 | h5
                · left; exact List.mem_cons_of_mem _ h5
                · right; left; exact h5
                · right; right; left; exact h5
                · exact absurd h5 (List.not_mem_nil c)
          · rw [if_neg hlt] at h
            rcases List.mem_cons.mp h with h3 | h3
            · right; right; left; exact h3
            · rcases List.mem_append.mp h3 with h4 | h4
              · right; right; right; exact List.mem_reverse.mp h4
              · rcases List.mem_cons.mp h4 with h5 | h5
                · left; rw [h5]; exact List.mem_cons_self _ _
                · rcases ih rest hlr none h5 with h6 | h6 | h6 | h6
                  · left; exact List.mem_cons_of_mem _ h6
                  · right; left; exact h6
                  · right; right; left; exact h6
                  · exact absurd h6 (List.not_mem_nil c)

theorem lb_id : ∀ (n : Nat) (cs : List Char), cs.length ≤ n → ltOk cs = true →
    lbGo none cs = cs := by
  intro n
  induction n with
  | zero =>
    intro cs hl _
    rw [List.length_eq_zero.mp (Nat.le_zero.mp hl)]
    rfl
  | succ n ih =>
    intro cs hl h
    cases cs with
    | nil => rfl
    | cons c1 rest =>
      by_cases hc : c1 = '<'
      · subst hc
        rcases ltOk_lt_elim h with ⟨rest2, hr, h2⟩ | hng
        · subst hr
          show '<' :: '>' :: lbGo none rest2 = '<' :: '>' :: rest2
          have hl2 : rest2.length ≤ n := by simp at hl; omega
          rw [ih rest2 hl2 h2]
        · show lbGo (some (.ws1, [])) rest = '<' :: rest
          have hlr : rest.length ≤ n := Nat.le_of_succ_le_succ hl
          rw [(lb_nogt n rest hlr hng).2 .ws1 []]
          rfl
      · rw [lbGo.eq_def]
        dsimp only
        rw [if_neg hc]
        rw [ltOk_cons_ne hc] at h
        rw [ih rest (Nat.le_of_succ_le_succ hl) h]

theorem nogt_of_not_contains {l : List Char} (h : (!l.contains '>') = true) : '>' ∉ l := by
  intro hm
  have h2 : l.contains '>' = true := List.elem_eq_true_of_mem hm
  rw [h2] at h
  exact absurd h (by decide)

theorem nbsp_map_ne_gt {rest : List Char} (h : '>' ∉ rest) : '>' ∉ nbspToSpace rest := by
  intro hm
  rcases List.mem_map.mp hm with ⟨a, ha, he⟩
  by_cases hn : a = nbspChar
  · rw [if_pos hn] at he; exact absurd he (by decide)
  · rw [if_neg hn] at he; exact h (he ▸ ha)

theorem ltOk_nbsp : ∀ (n : Nat) (cs : List Char), cs.length ≤ n → ltOk cs = true →
    ltOk (nbspToSpace cs) = true := by
  intro n
  induction n with
  | zero => intro cs hl _; rw [List.length_eq_zero.mp (Nat.le_zero.mp hl)]; rfl
  | succ n ih =>
    intro cs hl h
    cases cs with
    | nil => rfl
    | cons c1 rest =>
      by_cases hc : c1 = '<'
      · subst hc
        rcases ltOk_lt_elim h with ⟨rest2, hr, h2⟩ | hng
        · subst hr
          show ltOk ((if ('<' : Char) = nbspChar then ' ' else '<') ::
            (if ('>' : Char) = nbspChar then ' ' else '>') :: nbspToSpace rest2) = true
          rw [show (if ('<' : Char) = nbspChar then ' ' else '<') = '<' from by decide,
              show (if ('>' : Char) = nbspChar then ' ' else '>') = '>' from by decide]
          rw [ltOk_ltgt]
          exact ih rest2 (by simp at hl; omega) h2
        · show ltOk ((if ('<' : Char) = nbspChar then ' ' else '<') :: nbspToSpace rest) = true
          rw [show (if ('<' : Char) = nbspChar then ' ' else '<') = '<' from by decide]
          exact ltOk_lt_nogt (nbsp_map_ne_gt hng)
      · have hfc : (if c1 = nbspChar then ' ' else c1) ≠ '<' := by
          by_cases hn : c1 = nbspChar
          · rw [if_pos hn]; decide
          · rw [if_neg hn]; exact hc
        show ltOk ((if c1 = nbspChar then ' ' else c1) :: nbspToSpace rest) = true
        rw [ltOk_cons_ne hfc]
        rw [ltOk_cons_ne hc] at h
        exact ih rest (Nat.le_of_succ_le_succ hl) h

theorem ltOk_nl : ∀ (n : Nat) (cs : List Char), cs.length ≤ n → ltOk cs = true →
    ∀ b : Bool, ltOk (nlGo b cs) = true := by
  intro n
  induction n with
  | zero =>
    intro cs hl _ b
    rw [List.length_eq_zero.mp (Nat.le_zero.mp hl)]
    cases b <;> rfl
  | succ n ih =>
    intro cs hl h b
    cases cs with
    | nil => cases b <;> rfl
    | cons c1 rest =>
      have hlr : rest.length ≤ n := Nat.le_of_succ_le_succ hl
      by_cases hc : c1 = '<'
      · subst hc
        rw [nl_cons_ne (by decide) b rest]
        rcases ltOk_lt_elim h with ⟨rest2, hr, h2⟩ | hng
        · subst hr
          rw [nl_cons_ne (by decide) false rest2]
          rw [ltOk_ltgt]
          exact ih rest2 (by simp at hl; omega) h2 false
        · exact ltOk_lt_nogt (fun hm => hng (nl_mem rest false hm))
      · by_cases hnl : c1 = '\n'
        · subst hnl
          rw [ltOk_cons_ne hc] at h
          cases b with
          | true => exact ih rest hlr h true
          | false =>
            show ltOk ('\n' :: nlGo true rest) = true
            rw [ltOk_cons_ne (by decide)]
            exact ih rest hlr h true
        · rw [nl_cons_ne hnl b rest]
          rw [ltOk_cons_ne hc] at h ⊢
          exact ih rest hlr h false

theorem sp_ne_lt {c : Char} (hsp : isSpTab c = true) : c ≠ '<' := by
  intro he
  rw [he] at hsp
  exact absurd hsp (by decide)

theorem ltOk_sp : ∀ (n : Nat) (cs : List Char), cs.length ≤ n → ltOk cs = true →
    ltOk (collapseSp cs) = true ∧ ltOk (collapseSpSkip cs) = true := by
  intro n
  induction n with
  | zero =>
    intro cs hl _
    rw [List.length_eq_zero.mp (Nat.le_zero.mp hl)]
    exact ⟨rfl, rfl⟩
  | succ n ih =>
    intro cs hl h
    cases cs with
    | nil => exact ⟨rfl, rfl⟩
    | cons c1 rest =>
      have hlr : rest.length ≤ n := Nat.le_of_succ_le_succ hl
      have hskip : ltOk (collapseSpSkip (c1 :: rest)) = true := by
        rw [spSkip_cons]
        by_cases hsp : isSpTab c1 = true
        · rw [if_pos hsp]
          rw [ltOk_cons_ne (sp_ne_lt hsp)] at h
          exact (ih rest hlr h).2
        · rw [if_neg hsp]
          by_cases hc : c1 = '<'
          · subst hc
            rcases ltOk_lt_elim h with ⟨rest2, hr, h2⟩ | hng
            · subst hr
              rw [sp_cons_nonsp (by decide) rest2]
              rw [ltOk_ltgt]
              exact (ih rest2 (by simp at hl; omega) h2).1
            · refine ltOk_lt_nogt ?_
              intro hm
              rcases (sp_mem n rest hlr '>').1 hm with h3 | h3
              · exact hng h3
              · exact absurd h3 (by decide)
          · rw [ltOk_cons_ne hc] at h ⊢
            exact (ih rest hlr h).1
      refine ⟨?_, hskip⟩
      cases rest with
      | nil => exact h
      | cons c2 rest2 =>
        have hl2 : rest2.length ≤ n := by simp at hl; omega
        rw [sp_two]
        by_cases hb : (isSpTab c1 && isSpTab c2) = true
        · rw [if_pos hb]
          rw [ltOk_cons_ne (by decide)]
          have h1 := (Bool.and_eq_true_iff.mp hb).1
          have h2 := (Bool.and_eq_true_iff.mp hb).2
          rw [ltOk_cons_ne (sp_ne_lt h1), ltOk_cons_ne (sp_ne_lt h2)] at h
          exact (ih rest2 hl2 h).2
        · rw [if_neg hb]
          by_cases hc : c1 = '<'
          · subst hc
            rcases ltOk_lt_elim h with ⟨rest2x, hr, h2⟩ | hng
            · have hc2 : c2 = '>' := by
                injection hr with hh1 _
              have hr2 : rest2 = rest2x := by
                injection hr with _ hh2
              subst hc2; subst hr2
              rw [sp_cons_nonsp (by decide) rest2]
              rw [ltOk_ltgt]
              exact (ih rest2 hl2 h2).1
            · refine ltOk_lt_nogt ?_
              intro hm
              rcases (sp_mem n (c2 :: rest2) hlr '>').1 hm with h3 | h3
              · exact hng h3
              · exact absurd h3 (by decide)
          · rw [ltOk_cons_ne hc] at h ⊢
            exact (ih (c2 :: rest2) hlr h).1

theorem dropWhileP_mem {p : Char → Bool} {c : Char} :
    ∀ cs : List Char, c ∈ dropWhileP p cs → c ∈ cs := by
  intro cs
  induction cs with
  | nil => intro h; exact h
  | cons c1 rest ih =>
    intro h
    by_cases hp : p c1 = true
    · simp only [dropWhileP, if_pos hp] at h
      exact List.mem_cons_of_mem _ (ih h)
    · simp only [dropWhileP, if_neg hp] at h
      exact h

theorem dropWhileP_id {p : Char → Bool} (cs : List Char)
    (h : cs.head?.all (fun c => !p c) = true) : dropWhileP p cs = cs := by
  cases cs with
  | nil => rfl
  | cons c1 rest =>
    have hp : ¬(p c1 = true) := by
      intro hx
      have h2 : (!p c1) = true := h
      rw [hx] at h2
      exact absurd h2 (by decide)
    simp only [dropWhileP, if_neg hp]

theorem dropWhileP_head {p : Char → Bool} :
    ∀ cs : List Char, (dropWhileP p cs).head?.all (fun c => !p c) = true := by
  intro cs
  induction cs with
  | nil => rfl
  | cons c1 rest ih =>
    by_cases hp : p c1 = true
    · simp only [dropWhileP, if_pos hp]
      exact ih
    · simp only [dropWhileP, if_neg hp]
      show (!p c1) = true
      rw [Bool.eq_false_iff.mpr hp]
      rfl

theorem dropWhileP_ltOk {p : Char → Bool} (hpl : ∀ c, p c = true → c ≠ '<') :
    ∀ cs : List Char, ltOk cs = true → ltOk (dropWhileP p cs) = true := by
  intro cs
  induction cs with
  | nil => intro _; rfl
  | cons c1 rest ih =>
    intro h
    by_cases hp : p c1 = true
    · simp only [dropWhileP, if_pos hp]
      rw [ltOk_cons_ne (hpl c1 hp)] at h
      exact ih h
    · simp only [dropWhileP, if_neg hp]
      exact h

theorem dropWhileP_noAdj {p q : Char → Bool} :
    ∀ cs : List Char, noAdjRun q cs = true → noAdjRun q (dropWhileP p cs) = true := by
  intro cs
  induction cs with
  | nil => intro _; rfl
  | cons c1 rest ih =>
    intro h
    by_cases hp : p c1 = true
    · simp only [dropWhileP, if_pos hp]
      exact ih (noAdj_tail h)
    · simp only [dropWhileP, if_neg hp]
      exact h

theorem dropWhileP_last {p : Char → Bool} :
    ∀ cs : List Char, (dropWhileP p cs).getLast? = cs.getLast? ∨ dropWhileP p cs = [] := by
  intro cs
  induction cs with
  | nil => left; rfl
  | cons c1 rest ih =>
    by_cases hp : p c1 = true
    · simp only [dropWhileP, if_pos hp]
      cases rest with
      | nil => right; rfl
      | cons r rs =>
        rcases ih with h2 | h2
        · left; rw [h2, List.getLast?_cons_cons]
        · right; exact h2
    · simp only [dropWhileP, if_neg hp]
      left; trivial

theorem dropRight_prefix {p : Char → Bool} :
    ∀ cs : List Char, ∃ t, dropRightWhileP p cs ++ t = cs := by
  intro cs
  induction cs with
  | nil => exact ⟨[], rfl⟩
  | cons c1 rest ih =>
    rw [dropRightWhileP.eq_def]
    dsimp only
    rcases hd : dropRightWhileP p rest with _ | ⟨d, ds⟩
    · by_cases hp : p c1 = true
      · rw [if_pos hp]
        exact ⟨c1 :: rest, rfl⟩
      · rw [if_neg hp]
        exact ⟨rest, rfl⟩
    · obtain ⟨t, ht⟩ := ih
      rw [hd] at ht
      refine ⟨t, ?_⟩
      rw [List.cons_append, ht]

theorem dropRight_mem {p : Char → Bool} {c : Char} (cs : List Char)
    (h : c ∈ dropRightWhileP p cs) : c ∈ cs := by
  obtain ⟨t, ht⟩ := dropRight_prefix (p := p) cs
  rw [← ht]
  exact List.mem_append_left _ h

theorem dropRight_last {p : Char → Bool} :
    ∀ cs : List Char, (dropRightWhileP p cs).getLast?.all (fun c => !p c) = true := by
  intro cs
  induction cs with
  | nil => rfl
  | cons c1 rest ih =>
    rw [dropRightWhileP.eq_def]
    dsimp only
    rcases hd : dropRightWhileP p rest with _ | ⟨d, ds⟩
    · by_cases hp : p c1 = true
      · rw [if_pos hp]; rfl
      · rw [if_neg hp]
        show (!p c1) = true
        rw [Bool.eq_false_iff.mpr hp]
        rfl
    · rw [List.getLast?_cons_cons]
      rw [← hd]
      exact ih

theorem dropRight_id {p : Char → Bool} :
    ∀ cs : List Char, cs.getLast?.all (fun c => !p c) = true → dropRightWhileP p cs = cs := by
  intro cs
  induction cs with
  | nil => intro _; rfl
  | cons c1 rest ih =>
    intro h
    rw [dropRightWhileP.eq_def]
    dsimp only
    cases rest with
    | nil =>
      have hp : ¬(p c1 = true) := by
        intro hx
        have h2 : (!p c1) = true := h
        rw [hx] at h2
        exact absurd h2 (by decide)
      rw [show dropRightWhileP p ([] : List Char) = [] from rfl]
      rw [if_neg hp]
    | cons r rs =>
      have h2 : (r :: rs).getLast?.all (fun c => !p c) = true := by
        rw [← List.getLast?_cons_cons (a := c1)]
        exact h
      rw [ih h2]

theorem ltOk_append_left : ∀ (n : Nat) (xs : List Char), xs.length ≤ n →
    ∀ t : List Char, ltOk (xs ++ t) = true → ltOk xs = true := by
  intro n
  induction n with
  | zero =>
    intro xs hl t _
    rw [List.length_eq_zero.mp (Nat.le_zero.mp hl)]
    rfl
  | succ n ih =>
    intro xs hl t h
    cases xs with
    | nil => rfl
    | cons c1 xs2 =>
      by_cases hc : c1 = '<'
      · subst hc
        cases xs2 with
        | nil => rfl
        | cons c2 xs3 =>
          by_cases hc2 : c2 = '>'
          · subst hc2
            rw [ltOk_ltgt]
            rw [List.cons_append, List.cons_append, ltOk_ltgt] at h
            exact ih xs3 (by simp at hl; omega) t h
          · rw [List.cons_append, List.cons_append] at h
            rw [ltOk_lt_ne hc2] at h ⊢
            have hng : '>' ∉ c2 :: (xs3 ++ t) := nogt_of_not_contains h
            have hng2 : '>' ∉ c2 :: xs3 := by
              intro hm
              refine hng ?_
              rcases List.mem_cons.mp hm with h3 | h3
              · rw [h3]; exact List.mem_cons_self _ _
              · exact List.mem_cons_of_mem _ (List.mem_append_left _ h3)
            cases hx : (c2 :: xs3).contains '>' with
            | false => rfl
            | true => exact absurd (List.mem_of_elem_eq_true hx) hng2
      · rw [List.cons_append, ltOk_cons_ne hc] at h
        rw [ltOk_cons_ne hc]
        exact ih xs2 (Nat.le_of_succ_le_succ hl) t h

theorem noAdj_append_left {q : Char → Bool} :
    ∀ (xs t : List Char), noAdjRun q (xs ++ t) = true → noAdjRun q xs = true := by
  intro xs
  induction xs with
  | nil => intro t _; rfl
  | cons x xs2 ih =>
    intro t h
    cases xs2 with
    | nil => rfl
    | cons x2 xs3 =>
      rw [List.cons_append] at h
      have hpair : (q x && q x2) = false := by
        refine noAdj_pair h ?_
        rw [List.cons_append]
        rfl
      show (!(q x && q x2) && noAdjRun q (x2 :: xs3)) = true
      rw [hpair]
      rw [ih t (by rw [List.cons_append] at h; exact noAdj_tail h)]
      rfl

theorem tail_notmem_e {x : Char} (hsp : x ≠ ' ') {e : List Char} (h : x ∉ e) :
    x ∉ pyStripL (collapseSp (collapseNL e)) := by
  intro hm
  have h1 := dropWhileP_mem _ hm
  have h2 := dropRight_mem _ h1
  rcases ((sp_mem (collapseNL e).length (collapseNL e) (le_refl _) x).1 h2) with h3 | h3
  · exact h (nl_mem e false h3)
  · exact hsp h3

theorem tag_lb_crlf_amp (cs : List Char) (hamp : '&' ∉ cs) :
    '&' ∉ tagSub (lineBreakSub (crlfNorm cs)) := by
  intro hm
  rcases tagGo_mem none (lineBreakSub (crlfNorm cs)) hm with h2 | h2 | h2 | h2 | h2
  · rcases lbGo_mem (crlfNorm cs).length (crlfNorm cs) (le_refl _) none h2 with h3 | h3 | h3 | h3
    · rcases crlf_mem cs h3 with h4 | h4
      · exact hamp h4
      · exact absurd h4 (by decide)
    · exact absurd h3 (by decide)
    · exact absurd h3 (by decide)
    · exact absurd h3 (List.not_mem_nil _)
  · exact absurd h2 (by decide)
  · exact absurd h2 (by decide)
  · exact absurd h2 (by decide)
  · exact absurd h2 (List.not_mem_nil _)

theorem zOf_unfold (cs : List Char) (hamp : '&' ∉ cs) :
    zOf cs = pyStripL (collapseSp (collapseNL (nbspToSpace
      (tagSub (lineBreakSub (crlfNorm cs)))))) := by
  unfold zOf
  rw [unescape_id _ (tag_lb_crlf_amp cs hamp)]

theorem zOf_amp (cs : List Char) (hamp : '&' ∉ cs) : '&' ∉ zOf cs := by
  rw [zOf_unfold cs hamp]
  refine tail_notmem_e (by decide) ?_
  intro hm
  rcases nbsp_mem _ hm with h2 | h2
  · exact tag_lb_crlf_amp cs hamp h2
  · exact absurd h2 (by decide)

theorem zOf_cr (cs : List Char) (hamp : '&' ∉ cs) : '\x0d' ∉ zOf cs := by
  rw [zOf_unfold cs hamp]
  refine tail_notmem_e (by decide) ?_
  intro hm
  rcases nbsp_mem _ hm with h2 | h2
  · rcases tagGo_mem none (lineBreakSub (crlfNorm cs)) h2 with h3 | h3 | h3 | h3 | h3
    · rcases lbGo_mem (crlfNorm cs).length (crlfNorm cs) (le_refl _) none h3 with h4 | h4 | h4 | h4
      · exact crlf_noCR cs h4
      · exact absurd h4 (by decide)
      · exact absurd h4 (by decide)
      · exact absurd h4 (List.not_mem_nil _)
    · exact absurd h3 (by decide)
    · exact absurd h3 (by decide)
    · exact absurd h3 (by decide)
    · exact absurd h3 (List.not_mem_nil _)
  · exact absurd h2 (by decide)

theorem zOf_nbsp (cs : List Char) : nbspChar ∉ zOf cs := by
  unfold zOf
  exact tail_notmem_e (by decide) (nbsp_noNbsp _)

theorem zOf_ltOk (cs : List Char) (hamp : '&' ∉ cs) : ltOk (zOf cs) = true := by
  rw [zOf_unfold cs hamp]
  have hcc : ltOk (tagSub (lineBreakSub (crlfNorm cs))) = true :=
    tagGo_good none _ (List.not_mem_nil _)
  have he := ltOk_nbsp _ _ (le_refl _) hcc
  have hf := ltOk_nl _ _ (le_refl _) he false
  have hg := (ltOk_sp _ _ (le_refl _) hf).1
  obtain ⟨t, ht⟩ := dropRight_prefix
    (p := isPyWs) (collapseSp (collapseNL (nbspToSpace (tagSub (lineBreakSub (crlfNorm cs))))))
  have hdr : ltOk (dropRightWhileP isPyWs
      (collapseSp (collapseNL (nbspToSpace (tagSub (lineBreakSub (crlfNorm cs))))))) = true := by
    refine ltOk_append_left _ _ (le_refl _) t ?_
    rw [ht]
    exact hg
  exact dropWhileP_ltOk (fun c hc he => by rw [he] at hc; exact absurd hc (by decide)) _ hdr

theorem zOf_nn (cs : List Char) (hamp : '&' ∉ cs) : noAdjRun isNL (zOf cs) = true := by
  rw [zOf_unfold cs hamp]
  have hf : noAdjRun isNL (collapseNL (nbspToSpace (tagSub (lineBreakSub (crlfNorm cs))))) = true :=
    (nl_shape _).1
  have hg := (sp_noAdj (by decide) _ _ (le_refl _) hf).1
  obtain ⟨t, ht⟩ := dropRight_prefix
    (p := isPyWs) (collapseSp (collapseNL (nbspToSpace (tagSub (lineBreakSub (crlfNorm cs))))))
  have hdr : noAdjRun isNL (dropRightWhileP isPyWs
      (collapseSp (collapseNL (nbspToSpace (tagSub (lineBreakSub (crlfNorm cs))))))) = true := by
    refine noAdj_append_left _ t ?_
    rw [ht]
    exact hg
  exact dropWhileP_noAdj _ hdr

theorem zOf_ss (cs : List Char) : noAdjRun isSpTab (zOf cs) = true := by
  unfold zOf
  have hg := (sp_shape (collapseNL (nbspToSpace (unescapeHtml (tagSub (lineBreakSub
    (crlfNorm cs)))))).length _ (le_refl _)).1
  obtain ⟨t, ht⟩ := dropRight_prefix
    (p := isPyWs) (collapseSp (collapseNL (nbspToSpace (unescapeHtml (tagSub (lineBreakSub (crlfNorm cs)))))))
  have hdr : noAdjRun isSpTab (dropRightWhileP isPyWs
      (collapseSp (collapseNL (nbspToSpace (unescapeHtml (tagSub (lineBreakSub (crlfNorm cs)))))))) = true := by
    refine noAdj_append_left _ t ?_
    rw [ht]
    exact hg
  exact dropWhileP_noAdj _ hdr

theorem zOf_head (cs : List Char) : (zOf cs).head?.all (fun c => !isPyWs c) = true := by
  unfold zOf
  exact dropWhileP_head _

theorem zOf_last (cs : List Char) : (zOf cs).getLast?.all (fun c => !isPyWs c) = true := by
  unfold zOf
  show (dropWhileP isPyWs (dropRightWhileP isPyWs (collapseSp (collapseNL (nbspToSpace
    (unescapeHtml (tagSub (lineBreakSub (crlfNorm cs))))))))).getLast?.all
      (fun c => !isPyWs c) = true
  rcases dropWhileP_last (p := isPyWs) (dropRightWhileP isPyWs (collapseSp (collapseNL
      (nbspToSpace (unescapeHtml (tagSub (lineBreakSub (crlfNorm cs)))))))) with h2 | h2
  · rw [h2]
    exact dropRight_last _
  · rw [h2]
    rfl

theorem zOf_fix (cs : List Char) (hamp : '&' ∉ cs) :
    normalizeChunkText (String.mk (zOf cs)) = String.mk (zOf cs) := by
  by_cases hz0 : zOf cs = []
  · rw [hz0]
    rw [show String.mk ([] : List Char) = "" from by decide]
    rfl
  · have hne : String.mk (zOf cs) ≠ "" := by
      intro he
      have h2 : (String.mk (zOf cs)).data = ("" : String).data := congrArg String.data he
      exact hz0 h2
    unfold normalizeChunkText
    rw [if_neg hne]
    rw [show (String.mk (zOf cs)).data = zOf cs from rfl]
    rw [crlf_id (zOf cs) (zOf_cr cs hamp)]
    rw [show lineBreakSub (zOf cs) = zOf cs from
      lb_id (zOf cs).length (zOf cs) (le_refl _) (zOf_ltOk cs hamp)]
    rw [show tagSub (zOf cs) = zOf cs from
      tag_id (zOf cs).length (zOf cs) (le_refl _) (zOf_ltOk cs hamp)]
    rw [unescape_id (zOf cs) (zOf_amp cs hamp)]
    rw [nbsp_id (zOf cs) (zOf_nbsp cs)]
    rw [show collapseNL (zOf cs) = zOf cs from (nl_id (zOf cs) (zOf_nn cs hamp)).1]
    rw [show collapseSp (zOf cs) = zOf cs from
      sp_id (zOf cs).length (zOf cs) (le_refl _) (zOf_ss cs)]
    show String.mk (dropWhileP isPyWs (dropRightWhileP isPyWs (zOf cs))) = String.mk (zOf cs)
    rw [dropRight_id (zOf cs) (zOf_last cs)]
    rw [dropWhileP_id (zOf cs) (zOf_head cs)]

/-! # Claim theorems -/

/-- C1: the spec's sign-convention examples.  Three of the four hold, but
`extract_number_from_line "Year 2023"` returns `2023`, not `null`: 2023 is
*above* the 100 magnitude threshold, so the year is accepted as a value.
This theorem refutes the claim as stated at the concrete input
`"Year 2023"`. -/
theorem C1_counterexample :
    extract_number_from_line "Year 2023" = some 2023 ∧
    extract_number_from_line "Year 2023" ≠ none := by
  exact ⟨by decide, by decide⟩

/-- C1 (amended): `extract_number_from_line("Fee (500)") = -500`,
`extract_number_from_line("Balance 1,200 Dr") = 1200`,
`extract_number_from_line("Balance 1,200 Cr") = -1200`, and
`extract_number_from_line("Year 2023") = 2023` — the token 2023 meets the
`abs(value) >= 100` threshold, so years of this size are not rejected. -/
theorem C1_amended :
    extract_number_from_line "Fee (500)" = some (-500) ∧
    extract_number_from_line "Balance 1,200 Dr" = some 1200 ∧
    extract_number_from_line "Balance 1,200 Cr" = some (-1200) ∧
    extract_number_from_line "Year 2023" = some 2023 := by
  refine ⟨by decide, by decide, by decide, by decide⟩

/-- C6: the two-column data-only table `[["Name","John"],["Date","2024-01-01"]]`
does not get the synthetic header `["Field","Value"]`: the first row is short
and digit-free, so `looks_like_header` promotes it to the header. -/
theorem C6_counterexample :
    (parse_table_rows C6markup (normalizeChunkText C6markup)).1 ≠ ["Field", "Value"] := by
  decide

/-- C6 (amended): for that input the first row looks like a header and is
promoted: the result is header `["Name","John"]` with the single data row
`{"Name": "Date", "John": "2024-01-01"}`; the synthetic `["Field","Value"]`
header arises only when the first row does not look like a header. -/
theorem C6_amended :
    parse_table_rows C6markup (normalizeChunkText C6markup) =
      (["Name", "John"], [[("Name", "Date"), ("John", "2024-01-01")]]) := by
  decide

/-- C7: the HTML-table scenario end to end: one TableEntry with header
`["Item","Amount"]` and exactly one row, one metric `Total Assets = 1000000`,
and `balance_sheet.total_assets = 1000000`. -/
theorem C7_pipeline :
    (map_to_financial_schema C7resp "").tables.map
        (fun ts => ts.map (fun e => (e.header, e.rows))) =
      some [(["Item", "Amount"],
             [[("Item", "Total Assets"), ("Amount", "1,000,000")]])] ∧
    (map_to_financial_schema C7resp "").key_metrics.map (fun m => (m.name, m.value)) =
      [("Total Assets", 1000000)] ∧
    (map_to_financial_schema C7resp "").balance_sheet.total_assets = some 1000000 := by
  refine ⟨by decide, by decide, by decide⟩

/-- C2: evaluating the mapper at a response in which the same source table
appears both as chunk `chunk-0` and inside the full aggregate markdown: the
output contains *two* TableEntry records with identical header and rows —
the id-based dedup check can never match a chunk id against a
`full-markdown-table-N` id, so the intended dedup never fires. -/
theorem C2_duplicate_table_eval :
    (map_to_financial_schema C2resp "").tables.map
        (fun ts => ts.map (fun e => (e.id, e.header, e.rows))) =
      some [(Value.vs "chunk-0", ["Field", "Value"],
             [[("Field", "Total Fee"), ("Value", "5,000")]]),
            (Value.vs "full-markdown-table-0", ["Field", "Value"],
             [[("Field", "Total Fee"), ("Value", "5,000")]])] := by
  rfl

/-- C5: the claim's description of the error record is refuted at a concrete
malformed response: the mapper does catch the exception, but the returned
record has placeholder metadata `"Error Mapping Schema"` (not the default
`"Unknown Company"`) and no `tables` key at all (rather than empty tables). -/
theorem C5_counterexample :
    mapBody C5resp "" = .error "TypeError: object is not iterable" ∧
    (map_to_financial_schema C5resp "").tables ≠ some [] ∧
    (map_to_financial_schema C5resp "").metadata.company_name ≠ Value.vs "Unknown Company" := by
  refine ⟨rfl, ?_, ?_⟩
  · intro h
    exact Option.noConfusion h
  · intro h
    have h2 : Value.vs "Error Mapping Schema" = Value.vs "Unknown Company" := h
    injection h2 with h3
    exact absurd h3 (by decide)

/-- C5 (amended): when any exception escapes the mapper body, the outer
handler returns, instead of propagating, a minimal well-formed record: error
placeholder metadata (`"Error Mapping Schema"` / `"Unknown"` / `"Unknown"`),
empty `key_metrics`, empty statement buckets, an explanatory summary string —
and *no* `tables` key (every downstream consumer reads `tables` with
`.get("tables", [])`, so the absence is tolerated). -/
theorem C5_amended (resp : Value) (pdfText : String) (e : String)
    (h : mapBody resp pdfText = .error e) :
    map_to_financial_schema resp pdfText = errorFD e ∧
    (errorFD e).key_metrics = [] ∧
    (errorFD e).tables = none ∧
    (errorFD e).metadata.company_name = Value.vs "Error Mapping Schema" ∧
    (errorFD e).metadata.document_date = Value.vs "Unknown" ∧
    (errorFD e).metadata.document_type = Value.vs "Unknown" ∧
    truthyIncome (errorFD e).income_statement = false ∧
    truthyBalance (errorFD e).balance_sheet = false ∧
    (errorFD e).summary = some ("Error mapping financial schema: " ++ e) := by
  refine ⟨?_, rfl, rfl, rfl, rfl, rfl, rfl, rfl, rfl⟩
  unfold map_to_financial_schema
  rw [h]

/-- C5 witness: the amended theorem applied at a concrete malformed response
(`chunks` bound to the number 5, which is not iterable). -/
theorem C5_witness :
    map_to_financial_schema C5wresp "" = errorFD "TypeError: object is not iterable" ∧
    (errorFD "TypeError: object is not iterable").tables = none := by
  have h := C5_amended C5wresp "" "TypeError: object is not iterable" (by rfl)
  exact ⟨h.1, h.2.2.1⟩

/-- C8: whenever the raw markup contains a structured table tag (and pipe
characters) and the structured-markup strategy yields at least a header or a
row, `parse_table_rows` returns the structured-markup result — never the
pipe-delimited fallback, whatever the normalized text contains. -/
theorem C8_cascade (raw norm : String)
    (h1 : strIn "<table" (pyLower raw) = true)
    (h2 : raw.data.contains '|' = true)
    (h3 : htmlStrategyResult raw ≠ ([], [])) :
    parse_table_rows raw norm = htmlStrategyResult raw := by
  have hne : raw ≠ "" := by
    intro he
    rw [he] at h1
    exact absurd h1 (by decide)
  have hguard : (BS4_AVAILABLE && decide (raw ≠ "") && strIn "<table" (pyLower raw)) = true := by
    simp [BS4_AVAILABLE, hne, h1]
  unfold parse_table_rows
  rw [if_pos hguard]
  unfold htmlStrategyResult at h3 ⊢
  rcases hp : parseHtmlTable raw with _ | t
  · rw [hp] at h3
    exact absurd rfl h3
  · rw [hp] at h3
    dsimp only at h3
    rcases hl : htmlLogicE t with st | p
    · rw [hl] at h3
      dsimp only at h3
      exact absurd rfl h3
    · rcases p with ⟨hh, rr⟩
      rw [hl] at h3
      dsimp only at h3
      dsimp only
      rw [hl]
      dsimp only
      have ht : tableParse t norm =
          if hh ≠ [] || rr ≠ [] then (hh, rr) else pipeOrWsStrategy norm [] := by
        unfold tableParse
        rw [hl]
      rw [ht]
      have hor : (decide (hh ≠ []) || decide (rr ≠ [])) = true := by
        by_cases hhh : hh = []
        · by_cases hrr : rr = []
          · exact absurd (by rw [hhh, hrr]) h3
          · simp [hrr]
        · simp [hhh]
      rw [if_pos hor]

/-- C8 witness: markup containing both `<table>` and pipes, where the
structured strategy yields a result and `parse_table_rows` returns it. -/
theorem C8_witness :
    strIn "<table" (pyLower C8markup) = true ∧
    C8markup.data.contains '|' = true ∧
    htmlStrategyResult C8markup ≠ ([], []) ∧
    parse_table_rows C8markup "x | y\nz | 9,999" = htmlStrategyResult C8markup := by
  refine ⟨by decide, by decide, by decide, ?_⟩
  exact C8_cascade C8markup "x | y\nz | 9,999" (by decide) (by decide) (by decide)

/-- C10: the debit/credit markers are matched as standalone words anywhere in
the line (`re.search(r"\bcr\b")`, checked before `\bdr\b`), and the credit
branch wins: on any line containing both `cr` and `dr` as whole words, if the
token scan finds a qualifying number `v`, the function returns `-v`. -/
theorem C10_cr_precedence (line : String) (v : Dec)
    (hcr : hasWord2 'c' 'r' (pyLower line).data = true)
    (hdr : hasWord2 'd' 'r' (pyLower line).data = true)
    (hq : firstQualifying (pySplitWsGo [] (removeDrCrGo none (cleanNumericChars line.data))) = some v) :
    extract_number_from_line line = some (-v) := by
  have hne : line ≠ "" := by
    intro he
    rw [he] at hcr
    exact absurd hcr (by decide)
  unfold extract_number_from_line
  rw [if_neg hne]
  simp only [hcr, if_true, hq]
  show some (decMul (-1) v) = some (-v)
  have hm : decMul (-1) v = -v := by
    show (⟨(-1 : Int) * v.m, 0 + v.e⟩ : Dec) = ⟨-v.m, v.e⟩
    rw [neg_one_mul, Nat.zero_add]
  rw [hm]

/-- C10 witness: both markers appear (neither as a trailing suffix), the
qualifying token is 1200, and the result is negated. -/
theorem C10_witness :
    hasWord2 'c' 'r' (pyLower C10line).data = true ∧
    hasWord2 'd' 'r' (pyLower C10line).data = true ∧
    extract_number_from_line C10line = some (-1200) := by
  refine ⟨by decide, by decide, ?_⟩
  exact C10_cr_precedence C10line 1200 (by decide) (by decide) (by decide)

/-- C3: the claimed header invariant is refuted at two concrete inputs.
First, a two-column header with a three-cell data row yields the overflow row
key `col_3`, which is not an element of the header `["ab", "cd"]`.  Second, a
non-numeric `colspan` makes `int()` raise mid-way through the HTML row loop
after a row was already appended to the shared rows list; the swallowed
exception leaks that row into the whitespace fallback, which returns an
*empty* header together with the leaked non-empty row. -/
theorem C3_counterexample :
    (((tablesOf (map_to_financial_schema C3resp "")).map
        (fun e => (e.header, e.rows.map rowKeys))) =
      [(["ab", "cd"], [["ab", "cd", "col_3"]])] ∧
     "col_3" ∉ ["ab", "cd"]) ∧
    parse_table_rows C3leak "" = ([], [[("Field", "a1"), ("Value", "b")]]) := by
  exact ⟨⟨by decide, by decide⟩, by decide⟩

/-- C3 (amended): whenever the HTML strategy completes without raising (no
malformed `colspan` aborts its row loop), a `parse_table_rows` result with
non-empty rows has a non-empty header, and every row key is an element of the
header or a positional overflow key `col_N` with `N` beyond the header width.
When the strategy does raise, its partially built rows leak into the fallback
result, which can pair them with an empty header. -/
theorem C3_amended (raw norm : String) (hab : htmlAborted raw = false) :
    (parse_table_rows raw norm).2 ≠ [] →
      (parse_table_rows raw norm).1 ≠ [] ∧
      ∀ row ∈ (parse_table_rows raw norm).2, ∀ k ∈ rowKeys row,
        k ∈ (parse_table_rows raw norm).1 ∨
          OverflowKey (parse_table_rows raw norm).1 k :=
  parse_table_rows_inv raw norm hab

/-- C3 witness: the amended invariant at the concrete C7 table markup (the
HTML strategy completes, one data row, keys drawn from the header). -/
theorem C3_witness :
    htmlAborted C7markup = false ∧
    (parse_table_rows C7markup "").2 ≠ [] ∧
    ((parse_table_rows C7markup "").1 ≠ [] ∧
     ∀ row ∈ (parse_table_rows C7markup "").2, ∀ k ∈ rowKeys row,
       k ∈ (parse_table_rows C7markup "").1 ∨
         OverflowKey (parse_table_rows C7markup "").1 k) :=
  ⟨by decide, by decide, C3_amended C7markup "" (by decide) (by decide)⟩

/-- C9: (1) in every record produced by `map_to_financial_schema`, no two
`key_metrics` entries share a name under case-insensitive comparison; (2) in
`append_metric`, when a metric with the same lowered name is already present,
the record is returned unchanged — the first extraction wins and the later
duplicate is silently dropped. -/
theorem C9_metric_uniqueness :
    (∀ (resp : Value) (pdfText : String),
      List.Pairwise (fun a b => pyLower a.name ≠ pyLower b.name)
        (map_to_financial_schema resp pdfText).key_metrics) ∧
    (∀ (fd : FinancialData) (nm : String) (v : Dec) (u p : String) (s : Value),
      (∃ m ∈ fd.key_metrics, pyLower m.name = pyLower nm) →
      append_metric fd nm (some v) u p s = fd) := by
  constructor
  · intro resp pdfText
    exact mapSchema_inv resp pdfText
  · intro fd nm v u p s hex
    unfold append_metric
    dsimp only
    have hany : fd.key_metrics.any (fun m => pyLower m.name = pyLower nm) = true := by
      rw [List.any_eq_true]
      obtain ⟨m, hm, he⟩ := hex
      exact ⟨m, hm, by simp [he]⟩
    rw [if_pos hany]

/-- C9 witness: a record already holding "Total Assets" absorbs a later
"TOTAL ASSETS" extraction with no change. -/
theorem C9_witness :
    (∃ m ∈ fdW.key_metrics, pyLower m.name = pyLower "TOTAL ASSETS") ∧
    append_metric fdW "TOTAL ASSETS" (some ⟨500, 0⟩) "USD" "Current Period"
      .null = fdW :=
  have hex : ∃ m ∈ fdW.key_metrics, pyLower m.name = pyLower "TOTAL ASSETS" :=
    ⟨mW, List.Mem.head _, by decide⟩
  ⟨hex, C9_metric_uniqueness.2 fdW "TOTAL ASSETS" ⟨500, 0⟩ "USD" "Current Period"
    .null hex⟩


/-- C4: idempotence is refuted at the concrete input `"&amp;amp;"`: the first
pass resolves `&amp;` once, yielding `"&amp;"`, and the second pass resolves
it again to `"&"` -- `html.unescape` re-reads the `&` its own output produced,
so normalize of normalize differs from normalize. -/
theorem C4_counterexample :
    normalizeChunkText (normalizeChunkText C4input) ≠ normalizeChunkText C4input ∧
    normalizeChunkText C4input = "&amp;" ∧
    normalizeChunkText (normalizeChunkText C4input) = "&" := by
  exact ⟨by decide, by decide, by decide⟩

/-- C4 (amended): the normalizer is idempotent on every input that contains no
`&` character (no HTML character reference can then be formed, so the
entity-resolution stage is inert and every other stage fixes its own output):
for all such strings, `normalize(normalize(s)) = normalize(s)`. -/
theorem C4_amended (s : String) (h : '&' ∉ s.data) :
    normalizeChunkText (normalizeChunkText s) = normalizeChunkText s := by
  by_cases hs : s = ""
  · rw [hs]
    rfl
  · have hout : normalizeChunkText s = String.mk (zOf s.data) := by
      unfold normalizeChunkText
      rw [if_neg hs]
      rfl
    rw [hout]
    exact zOf_fix s.data h

/-- C4 witness: the amended idempotence at the concrete ampersand-free input
`"a  <br> b"` (which exercises the tag, line-break and space-collapse stages). -/
theorem C4_witness :
    '&' ∉ C4winput.data ∧
    normalizeChunkText (normalizeChunkText C4winput) = normalizeChunkText C4winput :=
  ⟨by decide, C4_amended C4winput (by decide)⟩


end DocProc
